import Mathlib

/-!
Verification development for a time-aware A* grid search engine.

The definitions below are a shallow embedding of the Python sources:
 - `GridWorld` and its operations follow the `GridWorld` class in
   `src/script_1.py` (grid of integer cell codes, time-indexed dynamic
   obstacle lists, silent bounds policy of the mutators).
 - `NodeRec`, the heuristics, the binary-heap routines and `search`
   follow `src/astar_sample.py` (nodes are shared mutable objects keyed
   by their position; the heap holds references, i.e. positions, and
   compares live `f_cost` values exactly as `heapq` does with
   `Node.__lt__`).
Costs are Python floats restricted to the values actually produced:
rationals plus the `float('inf')` sentinel, modelled by `Cost`.
Wall-clock timing (`computation_time`) is real time and is not modelled.
The Python `while open_set:` loop is modelled with an explicit fuel
parameter; every terminating Python run corresponds to a sufficiently
large fuel.
-/

abbrev Cell := ℤ × ℤ

/-- Exact rational number as an unnormalized fraction (denominator a
positive natural at every construction site).  Finite Python-float
values are modelled by exact rationals; this representation — rather
than Mathlib's `ℚ`, whose normalizing arithmetic is `@[irreducible]` —
keeps every search run evaluable by `decide`. -/
structure Frac where
  num : ℤ
  den : ℕ
deriving DecidableEq, Repr

/-- Embed an integer. -/
def Frac.ofInt (n : ℤ) : Frac := ⟨n, 1⟩

/-- Exact addition (no normalization). -/
def Frac.add (a b : Frac) : Frac := ⟨a.num * b.den + b.num * a.den, a.den * b.den⟩

/-- Exact strict comparison by cross-multiplication. -/
def Frac.blt (a b : Frac) : Bool := decide (a.num * (b.den : ℤ) < b.num * (a.den : ℤ))

/-- The rational value denoted by a fraction. -/
def Frac.toRat (a : Frac) : ℚ := (a.num : ℚ) / (a.den : ℚ)

/-- Path cost values: finite rationals or the `float('inf')` sentinel. -/
inductive Cost where
  | val : Frac → Cost
  | inf : Cost
deriving DecidableEq, Repr

/-- Addition on costs; `inf` is absorbing, as for IEEE infinities with
finite operands. -/
def Cost.add : Cost → Cost → Cost
  | Cost.val a, Cost.val b => Cost.val (a.add b)
  | _, _ => Cost.inf

instance : Add Cost := ⟨Cost.add⟩

/-- Strict comparison on costs, matching Python `<` on these floats
(`inf < inf` is false). -/
def Cost.blt : Cost → Cost → Bool
  | Cost.val a, Cost.val b => a.blt b
  | Cost.val _, Cost.inf => true
  | Cost.inf, _ => false

/-- The grid environment, from `GridWorld` in `src/script_1.py`.
`grid` maps a cell to its integer cell code (0 free, 1 obstacle,
2 start marker, 3 goal marker). -/
structure GridWorld where
  width : ℤ
  height : ℤ
  grid : Cell → ℤ
  start : Option Cell
  goal : Option Cell
  dynamic_obstacles : List (ℤ × List Cell)

/-- `GridWorld.__init__`: zero grid, no start/goal, empty dynamic table. -/
def mkGridWorld (w h : ℤ) : GridWorld :=
  { width := w, height := h, grid := fun _ => 0,
    start := none, goal := none, dynamic_obstacles := [] }

/-- `is_valid_position`. -/
def GridWorld.is_valid_position (gw : GridWorld) (x y : ℤ) : Bool :=
  decide (0 ≤ x) && decide (x < gw.width) && decide (0 ≤ y) && decide (y < gw.height)

/-- Pointwise update of the grid array. -/
def updateGrid (g : Cell → ℤ) (c : Cell) (v : ℤ) : Cell → ℤ :=
  fun p => if p = c then v else g p

/-- `add_static_obstacle`: writes cell code 1, silently ignoring
out-of-bounds coordinates. -/
def GridWorld.add_static_obstacle (gw : GridWorld) (x y : ℤ) : GridWorld :=
  if gw.is_valid_position x y then
    { gw with grid := updateGrid gw.grid (x, y) 1 }
  else gw

/-- Dictionary lookup in the `time -> cells` table. -/
def dynLookup : List (ℤ × List Cell) → ℤ → Option (List Cell)
  | [], _ => none
  | (t', l) :: rest, t => if t' = t then some l else dynLookup rest t

/-- `self.dynamic_obstacles[time].append((x, y))`, creating the key if
absent, exactly as the Python dict code does. -/
def dynAppend : List (ℤ × List Cell) → ℤ → Cell → List (ℤ × List Cell)
  | [], t, c => [(t, [c])]
  | (t', l) :: rest, t, c =>
    if t' = t then (t', l ++ [c]) :: rest else (t', l) :: dynAppend rest t c

/-- `add_dynamic_obstacle(positions)`: records each `(x, y, time)` triple
with no bounds check whatsoever. -/
def GridWorld.add_dynamic_obstacle (gw : GridWorld) (positions : List (ℤ × ℤ × ℤ)) : GridWorld :=
  positions.foldl
    (fun g p =>
      { g with dynamic_obstacles := dynAppend g.dynamic_obstacles p.2.2 (p.1, p.2.1) })
    gw

/-- A bounds-guarded grid write, the shape of both marker writes in
`set_start_goal`. -/
def markWrite (gw : GridWorld) (c : Cell) (v : ℤ) : GridWorld :=
  if gw.is_valid_position c.1 c.2 then { gw with grid := updateGrid gw.grid c v } else gw

/-- `set_start_goal`: records `start` and `goal` unconditionally, then
marks the grid cells (codes 2 then 3) only when in bounds. -/
def GridWorld.set_start_goal (gw : GridWorld) (s g : Cell) : GridWorld :=
  markWrite (markWrite { gw with start := some s, goal := some g } s 2) g 3

/-- `is_obstacle(x, y, time)`. -/
def GridWorld.is_obstacle (gw : GridWorld) (x y : ℤ) (t : ℤ) : Bool :=
  if !gw.is_valid_position x y then true
  else if gw.grid (x, y) = 1 then true
  else
    match dynLookup gw.dynamic_obstacles t with
    | some l => decide ((x, y) ∈ l)
    | none => false

/-- The fixed 4-connected direction order: right, down, left, up. -/
def directions : List (ℤ × ℤ) := [(0, 1), (1, 0), (0, -1), (-1, 0)]

/-- `get_neighbors(x, y, time)`: in-bounds, non-obstacle 4-neighbors in
the fixed direction order. -/
def GridWorld.get_neighbors (gw : GridWorld) (x y : ℤ) (t : ℤ) : List Cell :=
  (directions.map (fun d => (x + d.1, y + d.2))).filter
    (fun n => gw.is_valid_position n.1 n.2 && !gw.is_obstacle n.1 n.2 t)

/-- `get_terrain_cost(x, y)`: note the obstacle query is at time 0. -/
def GridWorld.get_terrain_cost (gw : GridWorld) (x y : ℤ) : Cost :=
  if gw.is_obstacle x y 0 then Cost.inf else Cost.val (Frac.ofInt 1)

/-- `Heuristics.manhattan_distance`. -/
def manhattan_distance (p q : Cell) : Frac :=
  Frac.ofInt (|p.1 - q.1| + |p.2 - q.2|)

/-- `Heuristics.diagonal_distance`; the Python source uses the literal
`1.414`, i.e. 1414/1000, not the real number `√2`.  This heuristic is
only analyzed numerically (C10), never run through the engine, so it is
stated over `ℚ` directly. -/
def diagonal_distance (p q : Cell) : ℚ :=
  let dx : ℚ := ((|p.1 - q.1| : ℤ) : ℚ)
  let dy : ℚ := ((|p.2 - q.2| : ℤ) : ℚ)
  max dx dy + (1414/1000 - 1) * min dx dy

/-- Per-search node record (`Node` in `src/astar_sample.py`).  A node
object is identified by its position: `all_nodes` holds the unique
object per position and both the heap and `parent` hold references to
those objects, so references are modelled as positions looked up in the
store. -/
structure NodeRec where
  g_cost : Cost
  h_cost : Frac
  parent : Option Cell
deriving DecidableEq, Repr

/-- The node store (`all_nodes`). -/
def NodeStore := Cell → Option NodeRec

def NodeStore.update (s : NodeStore) (c : Cell) (nd : NodeRec) : NodeStore :=
  fun p => if p = c then some nd else s p

/-- `Node.f_cost` read live from the store, as `Node.__lt__` reads the
mutable `g_cost` at comparison time. -/
def fCost (s : NodeStore) (p : Cell) : Cost :=
  match s p with
  | some nd => nd.g_cost + Cost.val nd.h_cost
  | none => Cost.inf

/-- `Node.__lt__`. -/
def nodeLt (s : NodeStore) (a b : Cell) : Bool :=
  Cost.blt (fCost s a) (fCost s b)

/-- CPython `heapq._siftdown(heap, startpos, pos)` inner loop: move
`newitem` toward the root.  `pos` strictly decreases on every iteration,
so the loop is run on a structural fuel that the call sites always set
high enough (any `fuel ≥ pos` is enough; the fuel-out branch is dead
code with the same final write). -/
def siftdownHeap (s : NodeStore) : ℕ → List Cell → Nat → Nat → Cell → List Cell
  | 0, heap, _, pos, newitem => heap.set pos newitem
  | fuel + 1, heap, startpos, pos, newitem =>
    if startpos < pos then
      if nodeLt s newitem (heap.getD ((pos - 1) / 2) (0, 0)) then
        siftdownHeap s fuel (heap.set pos (heap.getD ((pos - 1) / 2) (0, 0)))
          startpos ((pos - 1) / 2) newitem
      else heap.set pos newitem
    else heap.set pos newitem

/-- The child chosen by `heapq._siftup`: the right child when it exists
and the left child is not strictly smaller (`rightpos = childpos + 1`). -/
def pickChild (s : NodeStore) (heap : List Cell) (endpos childpos : Nat) : Nat :=
  if childpos + 1 < endpos &&
     !nodeLt s (heap.getD childpos (0, 0)) (heap.getD (childpos + 1) (0, 0)) then
    childpos + 1
  else childpos

/-- CPython `heapq._siftup(heap, pos)` inner loop: bubble the hole down
to a leaf, then sift `newitem` back up.  `pos` strictly increases toward
`endpos`, so the loop runs on a structural fuel that the call sites
always set high enough. -/
def siftupHeap (s : NodeStore) : ℕ → List Cell → Nat → Nat → Nat → Cell → List Cell
  | 0, heap, _, _, pos, newitem => heap.set pos newitem
  | fuel + 1, heap, endpos, startpos, pos, newitem =>
    if 2 * pos + 1 < endpos then
      siftupHeap s fuel
        (heap.set pos (heap.getD (pickChild s heap endpos (2 * pos + 1)) (0, 0)))
        endpos startpos (pickChild s heap endpos (2 * pos + 1)) newitem
    else siftdownHeap s (pos + 1) heap startpos pos newitem

/-- `heapq.heappush`. -/
def heapPush (s : NodeStore) (heap : List Cell) (item : Cell) : List Cell :=
  siftdownHeap s (heap.length + 1) (heap ++ [item]) 0 heap.length item

/-- `heapq.heappop`; `none` on an empty heap (the Python loop guard
ensures nonemptiness). -/
def heapPop (s : NodeStore) (heap : List Cell) : Option (Cell × List Cell) :=
  match heap with
  | [] => none
  | [a] => some (a, [])
  | a :: b :: rest =>
    let lastelt := (a :: b :: rest).getLast (by simp)
    let rest0 := (a :: b :: rest).dropLast
    some (a, siftupHeap s (rest0.length + 1) (rest0.set 0 lastelt) rest0.length 0 0 lastelt)

/-- `SearchResult` (timing omitted: wall-clock time is not modelled). -/
structure SearchResult where
  path : List Cell
  cost : Cost
  nodes_expanded : ℕ
  success : Bool
deriving DecidableEq, Repr

/-- The mutable state of one `search` call. -/
structure SState where
  heap : List Cell
  closed : Finset Cell
  store : NodeStore
  nodes_expanded : ℕ

/-- One neighbor iteration of the `for neighbor_pos in ...` loop. -/
def relaxNeighbor (gw : GridWorld) (hfun : Cell → Cell → Frac) (goal curPos : Cell)
    (curG : Cost) (st : SState) (npos : Cell) : SState :=
  if npos ∈ st.closed then st
  else
    match st.store npos with
    | some nd =>
      if Cost.blt (curG + gw.get_terrain_cost npos.1 npos.2) nd.g_cost then
        { st with
          store := st.store.update npos
            { nd with g_cost := curG + gw.get_terrain_cost npos.1 npos.2,
                      parent := some curPos },
          heap := heapPush
            (st.store.update npos
              { nd with g_cost := curG + gw.get_terrain_cost npos.1 npos.2,
                        parent := some curPos })
            st.heap npos }
      else st
    | none =>
      { st with
        store := st.store.update npos
          { g_cost := curG + gw.get_terrain_cost npos.1 npos.2,
            h_cost := hfun npos goal, parent := some curPos },
        heap := heapPush
          (st.store.update npos
            { g_cost := curG + gw.get_terrain_cost npos.1 npos.2,
              h_cost := hfun npos goal, parent := some curPos })
          st.heap npos }

/-- Close the popped position, count the expansion, and run the
neighbor loop. -/
def expandNode (gw : GridWorld) (hfun : Cell → Cell → Frac) (goal : Cell) (t : ℤ)
    (st : SState) (pos : Cell) : SState :=
  let curG := match st.store pos with
    | some nd => nd.g_cost
    | none => Cost.inf
  let st1 := { st with closed := insert pos st.closed,
                       nodes_expanded := st.nodes_expanded + 1 }
  (gw.get_neighbors pos.1 pos.2 t).foldl (relaxNeighbor gw hfun goal pos curG) st1

/-- `_reconstruct_path` chain in goal-to-start order (the list is
reversed afterwards, as in the source). -/
def chainAux (s : NodeStore) : Cell → ℕ → List Cell
  | _, 0 => []
  | p, fuel + 1 =>
    p :: (match s p with
          | some nd =>
            match nd.parent with
            | some q => chainAux s q fuel
            | none => []
          | none => [])

/-- The `while open_set:` loop; returns the `SearchResult` together with
the final state, or `none` if the fuel ran out mid-loop. -/
def searchLoop (gw : GridWorld) (hfun : Cell → Cell → Frac) (goal : Cell) (t : ℤ) :
    ℕ → SState → Option (SearchResult × SState)
  | 0, _ => none
  | fuel + 1, st =>
    match heapPop st.store st.heap with
    | none =>
      some ({ path := [], cost := Cost.inf,
              nodes_expanded := st.nodes_expanded, success := false }, st)
    | some (pos, heap') =>
      let st' := { st with heap := heap' }
      if pos = goal then
        let cost := match st'.store pos with
          | some nd => nd.g_cost
          | none => Cost.inf
        some ({ path := (chainAux st'.store pos (st'.nodes_expanded + 2)).reverse,
                cost := cost, nodes_expanded := st'.nodes_expanded,
                success := true }, st')
      else searchLoop gw hfun goal t fuel (expandNode gw hfun goal t st' pos)

/-- Initial state of a `search` call: the start node with `g_cost = 0`
and `h_cost = heuristic(start, goal)` is stored and pushed. -/
def initState (hfun : Cell → Cell → Frac) (start goal : Cell) : SState :=
  let store0 : NodeStore :=
    NodeStore.update (fun _ => none) start
      { g_cost := Cost.val (Frac.ofInt 0), h_cost := hfun start goal, parent := none }
  { heap := heapPush store0 [] start, closed := ∅, store := store0, nodes_expanded := 0 }

/-- `AStarSearch.search`, exposing the final internal state. -/
def searchFull (gw : GridWorld) (hfun : Cell → Cell → Frac) (start goal : Cell)
    (t : ℤ) (fuel : ℕ) : Option (SearchResult × SState) :=
  searchLoop gw hfun goal t fuel (initState hfun start goal)

/-- `AStarSearch.search`. -/
def search (gw : GridWorld) (hfun : Cell → Cell → Frac) (start goal : Cell)
    (t : ℤ) (fuel : ℕ) : Option SearchResult :=
  (searchFull gw hfun start goal t fuel).map Prod.fst

/-!  Reference reachability and breadth-first shortest distance, the
independent uniform-cost reference of §8 of the spec. -/

/-- Cells reachable from `start` in at most `k` neighbor steps at time
`t` (the start cell itself is never filtered, matching the engine). -/
def reachN (gw : GridWorld) (t : ℤ) (start : Cell) : ℕ → Finset Cell
  | 0 => {start}
  | k + 1 =>
    let S := reachN gw t start k
    S ∪ S.biUnion (fun p => (gw.get_neighbors p.1 p.2 t).toFinset)

/-- Breadth-first reference distance: the least step count `< bound` at
which `goal` becomes reachable. -/
def bfsShortest (gw : GridWorld) (t : ℤ) (start goal : Cell) (bound : ℕ) : Option ℕ :=
  (List.range bound).find? (fun k => goal ∈ reachN gw t start k)

/-- Every traversable cell of the time slice has terrain cost 1 (the
all-unit-cost premise of §8). -/
def UnitTerrain (gw : GridWorld) (t : ℤ) : Prop :=
  ∀ x y : ℤ, gw.is_obstacle x y t = false → gw.get_terrain_cost x y = Cost.val (Frac.ofInt 1)

/-- A heuristic never overestimating the true remaining step count to
`goal` on the time slice `t`. -/
def Admissible (gw : GridWorld) (t : ℤ) (goal : Cell) (hfun : Cell → Cell → Frac) : Prop :=
  ∀ (v : Cell) (k : ℕ), goal ∈ reachN gw t v k → (hfun v goal).toRat ≤ (k : ℚ)

/-- 4-adjacency of two cells. -/
def Adj (a b : Cell) : Prop :=
  (a.1 - b.1).natAbs + (a.2 - b.2).natAbs = 1

instance (a b : Cell) : Decidable (Adj a b) := by
  unfold Adj; infer_instance

/-!  Concrete instances used by the refutations. -/

/-- A 6×2 obstacle-free grid. -/
def gridA : GridWorld := mkGridWorld 6 2

/-- An admissible but inconsistent heuristic for goal `(5,0)` on
`gridA`: exact remaining distance 4 at `(1,0)`, zero elsewhere. -/
def heurA : Cell → Cell → Frac := fun p _ => if p = (1, 0) then Frac.ofInt 4 else Frac.ofInt 0

/-- A 3×2 obstacle-free grid. -/
def gridB : GridWorld := mkGridWorld 3 2

/-- Heuristic delaying `(1,0)` just enough that `(2,0)` is first found
via the long route and improved while still queued. -/
def heurB : Cell → Cell → Frac := fun p _ => if p = (1, 0) then ⟨5, 2⟩ else Frac.ofInt 0

/-- A 2×2 grid whose cell `(0,0)` is a static obstacle. -/
def gridC : GridWorld := (mkGridWorld 2 2).add_static_obstacle 0 0

/-- A 3×3 grid with a dynamic obstacle at `(1,0)` active only at time 0. -/
def gridD : GridWorld := (mkGridWorld 3 3).add_dynamic_obstacle [(1, 0, 0)]

/-- A 3×3 obstacle-free grid. -/
def gridE : GridWorld := mkGridWorld 3 3

/-- Mutator calls of the Grid World, for stating the C3 invariant over
arbitrary call sequences. -/
inductive Mutation where
  | addStatic (x y : ℤ)
  | addDynamic (positions : List (ℤ × ℤ × ℤ))
  | setSG (s g : Cell)

def applyMutation (gw : GridWorld) : Mutation → GridWorld
  | Mutation.addStatic x y => gw.add_static_obstacle x y
  | Mutation.addDynamic ps => gw.add_dynamic_obstacle ps
  | Mutation.setSG s g => gw.set_start_goal s g

def applyMutations (gw : GridWorld) (ms : List Mutation) : GridWorld :=
  ms.foldl applyMutation gw

/-- Heap-independent part of the search-loop invariant. -/
structure StoreInv (gw : GridWorld) (t : ℤ) (start goal : Cell) (st : SState) : Prop where
  start_some : (st.store start).isSome
  parent_none : ∀ p nd, st.store p = some nd → nd.parent = none →
    p = start ∧ nd.g_cost = Cost.val (Frac.ofInt 0)
  parent_link : ∀ p nd q, st.store p = some nd → nd.parent = some q →
    ∃ qd, st.store q = some qd ∧ q ∈ st.closed ∧
      p ∈ gw.get_neighbors q.1 q.2 t ∧
      nd.g_cost = qd.g_cost + gw.get_terrain_cost p.1 p.2
  closed_some : ∀ p ∈ st.closed, (st.store p).isSome
  closed_not_goal : goal ∉ st.closed
  closed_exp : ∀ p ∈ st.closed, ∀ n ∈ gw.get_neighbors p.1 p.2 t, (st.store n).isSome
  reach : ∀ p, (st.store p).isSome → ∃ k, p ∈ reachN gw t start k
  card_le : st.closed.card ≤ st.nodes_expanded
  pos_ok : ∀ p, (st.store p).isSome → p = start ∨ gw.is_valid_position p.1 p.2 = true

/-- Full search-loop invariant. -/
structure LoopInv (gw : GridWorld) (t : ℤ) (start goal : Cell) (st : SState)
    extends StoreInv gw t start goal st : Prop where
  heap_some : ∀ p ∈ st.heap, (st.store p).isSome
  cover : ∀ p, (st.store p).isSome → p ∈ st.closed ∨ p ∈ st.heap

/-- Invariant maintained across the neighbor fold of one expansion:
`closed_exp` is weakened at the cell being expanded. -/
structure ExpInv (gw : GridWorld) (t : ℤ) (start goal : Cell) (curPos : Cell)
    (cnd : NodeRec) (st : SState) : Prop where
  start_some : (st.store start).isSome
  parent_none : ∀ p nd, st.store p = some nd → nd.parent = none →
    p = start ∧ nd.g_cost = Cost.val (Frac.ofInt 0)
  parent_link : ∀ p nd q, st.store p = some nd → nd.parent = some q →
    ∃ qd, st.store q = some qd ∧ q ∈ st.closed ∧
      p ∈ gw.get_neighbors q.1 q.2 t ∧
      nd.g_cost = qd.g_cost + gw.get_terrain_cost p.1 p.2
  closed_some : ∀ p ∈ st.closed, (st.store p).isSome
  closed_not_goal : goal ∉ st.closed
  closed_exp' : ∀ p ∈ st.closed, p ≠ curPos →
    ∀ n ∈ gw.get_neighbors p.1 p.2 t, (st.store n).isSome
  reach : ∀ p, (st.store p).isSome → ∃ k, p ∈ reachN gw t start k
  card_le : st.closed.card ≤ st.nodes_expanded
  pos_ok : ∀ p, (st.store p).isSome → p = start ∨ gw.is_valid_position p.1 p.2 = true
  heap_some : ∀ p ∈ st.heap, (st.store p).isSome
  cover : ∀ p, (st.store p).isSome → p ∈ st.closed ∨ p ∈ st.heap
  cur_closed : curPos ∈ st.closed
  cur_store : st.store curPos = some cnd

/-- All g-costs are natural numbers (embedded integers) when every
traversable cell has terrain cost 1. -/
def GNat (st : SState) : Prop :=
  ∀ p nd, st.store p = some nd → ∃ n : ℕ, nd.g_cost = Cost.val (Frac.ofInt n)

/-- The in-bounds cells as a finite set. -/
def validCells (gw : GridWorld) : Finset Cell :=
  Finset.Ico 0 gw.width ×ˢ Finset.Ico 0 gw.height

/-!  Helper lemmas about the Grid World. -/

theorem add_dynamic_grid_eq (ps : List (ℤ × ℤ × ℤ)) (gw : GridWorld) :
    (gw.add_dynamic_obstacle ps).grid = gw.grid ∧
    (gw.add_dynamic_obstacle ps).width = gw.width ∧
    (gw.add_dynamic_obstacle ps).height = gw.height := by
  induction ps generalizing gw with
  | nil => exact ⟨rfl, rfl, rfl⟩
  | cons p rest ih =>
    simpa [GridWorld.add_dynamic_obstacle] using
      ih { gw with dynamic_obstacles := dynAppend gw.dynamic_obstacles p.2.2 (p.1, p.2.1) }

/-- `is_valid_position` ignores everything but the dimensions. -/
theorem is_valid_dims (gw gw' : GridWorld) (hx : gw'.width = gw.width)
    (hy : gw'.height = gw.height) (x y : ℤ) :
    gw'.is_valid_position x y = gw.is_valid_position x y := by
  simp [GridWorld.is_valid_position, hx, hy]

theorem markWrite_width (gw : GridWorld) (c : Cell) (v : ℤ) :
    (markWrite gw c v).width = gw.width := by
  unfold markWrite; split <;> rfl

theorem markWrite_height (gw : GridWorld) (c : Cell) (v : ℤ) :
    (markWrite gw c v).height = gw.height := by
  unfold markWrite; split <;> rfl

/-- A nonzero cell after a guarded write was nonzero before, or is the
written (necessarily in-bounds) cell. -/
theorem markWrite_grid_ne (gw : GridWorld) (c : Cell) (v : ℤ) (a b : ℤ)
    (h : (markWrite gw c v).grid (a, b) ≠ 0) :
    gw.grid (a, b) ≠ 0 ∨ gw.is_valid_position a b = true := by
  unfold markWrite at h
  split at h
  · rename_i hv
    simp only [updateGrid] at h
    by_cases hc : ((a, b) : Cell) = c
    · right; rw [← hc] at hv; simpa using hv
    · left; simpa [hc] using h
  · left; exact h

/-- Mutators never change the dimensions. -/
theorem applyMutation_dims (gw : GridWorld) (m : Mutation) :
    (applyMutation gw m).width = gw.width ∧ (applyMutation gw m).height = gw.height := by
  cases m with
  | addStatic a b =>
    simp only [applyMutation, GridWorld.add_static_obstacle]
    split <;> exact ⟨rfl, rfl⟩
  | addDynamic ps =>
    exact ⟨(add_dynamic_grid_eq ps gw).2.1, (add_dynamic_grid_eq ps gw).2.2⟩
  | setSG s g =>
    simp only [applyMutation, GridWorld.set_start_goal]
    rw [markWrite_width, markWrite_width, markWrite_height, markWrite_height]
    exact ⟨rfl, rfl⟩

/-- Grid-mark boundedness is preserved by every mutator. -/
theorem applyMutation_marks (gw : GridWorld) (m : Mutation)
    (hm : ∀ x y : ℤ, gw.grid (x, y) ≠ 0 → gw.is_valid_position x y = true) :
    ∀ x y : ℤ, (applyMutation gw m).grid (x, y) ≠ 0 →
      (applyMutation gw m).is_valid_position x y = true := by
  intro x y hxy
  rw [is_valid_dims gw _ (applyMutation_dims gw m).1 (applyMutation_dims gw m).2]
  cases m with
  | addStatic a b =>
    simp only [applyMutation, GridWorld.add_static_obstacle] at hxy
    split at hxy
    · rename_i hv
      simp only [updateGrid] at hxy
      by_cases hc : ((x, y) : Cell) = (a, b)
      · cases hc; exact hv
      · exact hm x y (by simpa [hc] using hxy)
    · exact hm x y hxy
  | addDynamic ps =>
    have hg := (add_dynamic_grid_eq ps gw).1
    simp only [applyMutation] at hxy
    rw [hg] at hxy
    exact hm x y hxy
  | setSG s g =>
    simp only [applyMutation, GridWorld.set_start_goal] at hxy
    set gw1 : GridWorld := { gw with start := some s, goal := some g } with hgw1
    rcases markWrite_grid_ne _ g 3 x y hxy with h1 | hval1
    · rcases markWrite_grid_ne gw1 s 2 x y h1 with h2 | hval2
      · exact hm x y h2
      · exact hval2
    · rw [is_valid_dims gw1 _ (markWrite_width _ _ _) (markWrite_height _ _ _)] at hval1
      exact hval1

/-- Grid-mark boundedness over arbitrary mutator sequences. -/
theorem applyMutations_marks (ms : List Mutation) (gw : GridWorld)
    (hm : ∀ x y : ℤ, gw.grid (x, y) ≠ 0 → gw.is_valid_position x y = true) :
    ∀ x y : ℤ, (applyMutations gw ms).grid (x, y) ≠ 0 →
      (applyMutations gw ms).is_valid_position x y = true := by
  induction ms generalizing gw with
  | nil => exact hm
  | cons m rest ih =>
    exact ih (applyMutation gw m) (applyMutation_marks gw m hm)

/-- C3 counterexample: `add_dynamic_obstacle` records the out-of-bounds
cell `(5,5)` on a 3×3 grid (state change, invariant violated), and
`set_start_goal` records an out-of-bounds start. -/
theorem c3_counterexample :
    dynLookup ((mkGridWorld 3 3).add_dynamic_obstacle [(5, 5, 0)]).dynamic_obstacles 0 =
      some [(5, 5)] ∧
    ((mkGridWorld 3 3).add_dynamic_obstacle [(5, 5, 0)]).is_valid_position 5 5 = false ∧
    ((mkGridWorld 3 3).set_start_goal (5, 5) (1, 1)).start = some (5, 5) := by
  refine ⟨by decide, by decide, ?_⟩
  rfl

/-- C3 amended: only `add_static_obstacle` (and the grid-marking part of
`set_start_goal`) is bounds-validated and silently ignores out-of-bounds
coordinates, so every nonzero grid mark is in bounds after any mutator
sequence; `add_dynamic_obstacle` and the `start`/`goal` fields are
recorded without validation. -/
theorem c3_amended :
    (∀ (gw : GridWorld) (x y : ℤ), gw.is_valid_position x y = false →
        gw.add_static_obstacle x y = gw) ∧
    (∀ (w h : ℤ) (ms : List Mutation) (x y : ℤ),
        (applyMutations (mkGridWorld w h) ms).grid (x, y) ≠ 0 →
        (applyMutations (mkGridWorld w h) ms).is_valid_position x y = true) := by
  constructor
  · intro gw x y hv
    unfold GridWorld.add_static_obstacle
    simp [hv]
  · intro w h ms x y hxy
    exact applyMutations_marks ms (mkGridWorld w h) (fun a b hab => absurd rfl hab) x y hxy

theorem c3_witness :
    (mkGridWorld 3 3).add_static_obstacle 9 9 = mkGridWorld 3 3 ∧
    (applyMutations (mkGridWorld 3 3) [Mutation.addStatic 1 1]).is_valid_position 1 1 = true :=
  ⟨c3_amended.1 (mkGridWorld 3 3) 9 9 (by decide),
   c3_amended.2 3 3 [Mutation.addStatic 1 1] 1 1 (by decide)⟩

/-- C8: `is_obstacle(x, y, t)` is true exactly when the cell is out of
bounds, statically marked, or present in the dynamic list for `t`; a
missing time key means no dynamic obstacle (no error). -/
theorem c8_is_obstacle_iff (gw : GridWorld) (x y t : ℤ) :
    gw.is_obstacle x y t = true ↔
      gw.is_valid_position x y = false ∨ gw.grid (x, y) = 1 ∨
      ∃ l, dynLookup gw.dynamic_obstacles t = some l ∧ (x, y) ∈ l := by
  unfold GridWorld.is_obstacle
  cases hv : gw.is_valid_position x y
  · simp [hv]
  · by_cases hg : gw.grid (x, y) = 1
    · simp [hv, hg]
    · cases hd : dynLookup gw.dynamic_obstacles t <;> simp [hv, hg, hd]

/-- C9: a cell returned by `get_neighbors` is free at the query time,
yet `get_terrain_cost` judges it at time 0: infinite cost exactly when
the cell is an obstacle at time 0. -/
theorem c9_terrain_time_zero (gw : GridWorld) (t : ℤ) (p n : Cell)
    (hmem : n ∈ gw.get_neighbors p.1 p.2 t) :
    gw.is_obstacle n.1 n.2 t = false ∧
    (gw.is_obstacle n.1 n.2 0 = true → gw.get_terrain_cost n.1 n.2 = Cost.inf) ∧
    (gw.is_obstacle n.1 n.2 0 = false →
      gw.get_terrain_cost n.1 n.2 = Cost.val (Frac.ofInt 1)) := by
  unfold GridWorld.get_neighbors at hmem
  rw [List.mem_filter] at hmem
  have hfree : gw.is_obstacle n.1 n.2 t = false := by
    have := hmem.2
    rcases Bool.and_eq_true _ _ |>.mp this with ⟨_, hnot⟩
    simpa using hnot
  refine ⟨hfree, ?_, ?_⟩
  · intro h0; unfold GridWorld.get_terrain_cost; simp [h0]
  · intro h0; unfold GridWorld.get_terrain_cost; simp [h0]

theorem c9_witness :
    gridD.is_obstacle 1 0 5 = false ∧
    (gridD.is_obstacle 1 0 0 = true → gridD.get_terrain_cost 1 0 = Cost.inf) ∧
    (gridD.is_obstacle 1 0 0 = false →
      gridD.get_terrain_cost 1 0 = Cost.val (Frac.ofInt 1)) :=
  c9_terrain_time_zero gridD 5 (0, 0) (1, 0) (by decide)

/-- C10 counterexample: at cells `(0,0)` and `(1,1)` (so `dx = dy = 1`)
the implementation returns the rational `1.414`, which is not
`max(dx,dy) + (√2 − 1)·min(dx,dy) = √2`. -/
theorem c10_counterexample :
    diagonal_distance (0, 0) (1, 1) = 1414/1000 ∧
    ((diagonal_distance (0, 0) (1, 1) : ℚ) : ℝ) ≠
      max |(0 : ℝ) - 1| |(0 : ℝ) - 1| +
        (Real.sqrt 2 - 1) * min |(0 : ℝ) - 1| |(0 : ℝ) - 1| := by
  have hval : diagonal_distance (0, 0) (1, 1) = 1414/1000 := by
    norm_num [diagonal_distance]
  refine ⟨hval, ?_⟩
  rw [hval]
  have hrhs : max |(0 : ℝ) - 1| |(0 : ℝ) - 1| +
      (Real.sqrt 2 - 1) * min |(0 : ℝ) - 1| |(0 : ℝ) - 1| = Real.sqrt 2 := by
    norm_num
  rw [hrhs]
  intro hcontra
  exact irrational_sqrt_two ⟨1414/1000, hcontra⟩

/-- The implementation's coefficient `1.414` is strictly below `√2`. -/
theorem approx_lt_sqrt_two : ((1414/1000 : ℚ) : ℝ) < Real.sqrt 2 := by
  have h1 : ((1414/1000 : ℚ) : ℝ) = (1414/1000 : ℝ) := by norm_num
  rw [h1, show (1414/1000 : ℝ) = 707/500 by norm_num]
  rw [Real.lt_sqrt (by norm_num)]
  norm_num

/-- C10 amended: the diagonal heuristic uses the truncated constant
`1.414` in place of `√2`: it equals
`max(dx,dy) + (1.414 − 1)·min(dx,dy)`, which coincides with the octile
formula `max(dx,dy) + (√2 − 1)·min(dx,dy)` when `min(dx,dy) = 0` and is
strictly below it whenever `min(dx,dy) ≥ 1`. -/
theorem c10_amended (a b : Cell) :
    diagonal_distance a b =
      max ((|a.1 - b.1| : ℤ) : ℚ) ((|a.2 - b.2| : ℤ) : ℚ) +
        (1414/1000 - 1) * min ((|a.1 - b.1| : ℤ) : ℚ) ((|a.2 - b.2| : ℤ) : ℚ) ∧
    (min ((|a.1 - b.1| : ℤ) : ℚ) ((|a.2 - b.2| : ℤ) : ℚ) = 0 →
      ((diagonal_distance a b : ℚ) : ℝ) =
        max |(a.1 : ℝ) - (b.1 : ℝ)| |(a.2 : ℝ) - (b.2 : ℝ)| +
          (Real.sqrt 2 - 1) * min |(a.1 : ℝ) - (b.1 : ℝ)| |(a.2 : ℝ) - (b.2 : ℝ)|) ∧
    (1 ≤ min ((|a.1 - b.1| : ℤ) : ℚ) ((|a.2 - b.2| : ℤ) : ℚ) →
      ((diagonal_distance a b : ℚ) : ℝ) <
        max |(a.1 : ℝ) - (b.1 : ℝ)| |(a.2 : ℝ) - (b.2 : ℝ)| +
          (Real.sqrt 2 - 1) * min |(a.1 : ℝ) - (b.1 : ℝ)| |(a.2 : ℝ) - (b.2 : ℝ)|) := by
  have habsx : ((|a.1 - b.1| : ℤ) : ℝ) = |(a.1 : ℝ) - (b.1 : ℝ)| := by push_cast; ring_nf
  have habsy : ((|a.2 - b.2| : ℤ) : ℝ) = |(a.2 : ℝ) - (b.2 : ℝ)| := by push_cast; ring_nf
  have hqr : ((diagonal_distance a b : ℚ) : ℝ) =
      max |(a.1 : ℝ) - (b.1 : ℝ)| |(a.2 : ℝ) - (b.2 : ℝ)| +
        (1414/1000 - 1) * min |(a.1 : ℝ) - (b.1 : ℝ)| |(a.2 : ℝ) - (b.2 : ℝ)| := by
    unfold diagonal_distance
    rw [Rat.cast_add, Rat.cast_max, Rat.cast_mul, Rat.cast_min]
    rw [show (((1414/1000 - 1 : ℚ)) : ℝ) = 1414/1000 - 1 by norm_num]
    rw [show ((((|a.1 - b.1| : ℤ) : ℚ)) : ℝ) = ((|a.1 - b.1| : ℤ) : ℝ) by push_cast; ring]
    rw [show ((((|a.2 - b.2| : ℤ) : ℚ)) : ℝ) = ((|a.2 - b.2| : ℤ) : ℝ) by push_cast; ring]
    rw [habsx, habsy]
  have hminr : ((min ((|a.1 - b.1| : ℤ) : ℚ) ((|a.2 - b.2| : ℤ) : ℚ) : ℚ) : ℝ) =
      min |(a.1 : ℝ) - (b.1 : ℝ)| |(a.2 : ℝ) - (b.2 : ℝ)| := by
    rw [Rat.cast_min]
    rw [show ((((|a.1 - b.1| : ℤ) : ℚ)) : ℝ) = ((|a.1 - b.1| : ℤ) : ℝ) by push_cast; ring]
    rw [show ((((|a.2 - b.2| : ℤ) : ℚ)) : ℝ) = ((|a.2 - b.2| : ℤ) : ℝ) by push_cast; ring]
    rw [habsx, habsy]
  refine ⟨rfl, ?_, ?_⟩
  · intro hmin0
    have hmin0r : min |(a.1 : ℝ) - (b.1 : ℝ)| |(a.2 : ℝ) - (b.2 : ℝ)| = 0 := by
      rw [← hminr, hmin0]; norm_num
    rw [hqr, hmin0r]; ring
  · intro hmin1
    have hmin1r : (1 : ℝ) ≤ min |(a.1 : ℝ) - (b.1 : ℝ)| |(a.2 : ℝ) - (b.2 : ℝ)| := by
      rw [← hminr]; exact_mod_cast hmin1
    have hlt := approx_lt_sqrt_two
    have hlt' : (1414/1000 : ℝ) < Real.sqrt 2 := by
      rw [show (1414/1000 : ℝ) = ((1414/1000 : ℚ) : ℝ) by norm_num]; exact hlt
    rw [hqr]
    nlinarith [hlt', hmin1r]

theorem c10_witness :
    ((diagonal_distance (0, 0) (1, 1) : ℚ) : ℝ) <
      max |((0 : ℤ) : ℝ) - ((1 : ℤ) : ℝ)| |((0 : ℤ) : ℝ) - ((1 : ℤ) : ℝ)| +
        (Real.sqrt 2 - 1) *
          min |((0 : ℤ) : ℝ) - ((1 : ℤ) : ℝ)| |((0 : ℤ) : ℝ) - ((1 : ℤ) : ℝ)| :=
  (c10_amended (0, 0) (1, 1)).2.2 (by norm_num)

/-- C1 counterexample: on the obstacle-free all-unit 6×2 grid `gridA`
with the admissible heuristic `heurA` (exact remaining distance 4 at
`(1,0)`, zero elsewhere — admissible but inconsistent), the engine
returns cost 7 from `(0,0)` to `(5,0)` while the breadth-first
reference distance is 5. -/
theorem c1_counterexample :
    Admissible gridA 0 (5, 0) heurA ∧
    UnitTerrain gridA 0 ∧
    (search gridA heurA (0, 0) (5, 0) 0 100).map SearchResult.cost =
      some (Cost.val (Frac.ofInt 7)) ∧
    bfsShortest gridA 0 (0, 0) (5, 0) 14 = some 5 ∧
    Frac.ofInt 7 ≠ Frac.ofInt 5 := by
  refine ⟨?_, ?_, by decide, by decide, by decide⟩
  · intro v k hk
    by_cases hv : v = (1, 0)
    · subst hv
      have h4 : 4 ≤ k := by
        by_contra hlt
        push_neg at hlt
        interval_cases k <;> revert hk <;> decide
      have hval : heurA (1, 0) (5, 0) = Frac.ofInt 4 := rfl
      rw [hval]
      show (4 : ℚ) / (1 : ℚ) ≤ (k : ℚ)
      rw [div_one]
      exact_mod_cast h4
    · have hval : heurA v (5, 0) = Frac.ofInt 0 := by simp [heurA, hv]
      rw [hval]
      show (0 : ℚ) / (1 : ℚ) ≤ (k : ℚ)
      rw [div_one]
      exact_mod_cast Nat.zero_le k
  · intro x y hfree
    unfold GridWorld.get_terrain_cost
    simp [hfree]

/-- C2 counterexample: on `gridB` with heuristic `heurB` and the
unreachable goal `(9,9)`, cell `(2,0)` is improved while still queued,
so its stale second heap entry is popped after the position is already
closed — and it is NOT skipped: the final state has 6 distinct closed
positions but `nodes_expanded = 7`. -/
theorem c2_counterexample :
    (searchFull gridB heurB (0, 0) (9, 9) 0 100).map
      (fun r => (r.2.closed.card, r.2.nodes_expanded)) = some (6, 7) ∧
    (6 : ℕ) < 7 := by
  exact ⟨by decide, by decide⟩

/-- C4 counterexample: with the in-bounds start `(0,0)` being a static
obstacle, the search still succeeds (the engine never checks the start
cell's own traversability), contradicting the claimed failure result. -/
theorem c4_counterexample :
    gridC.is_obstacle 0 0 0 = true ∧
    search gridC manhattan_distance (0, 0) (1, 0) 0 100 =
      some { path := [(0, 0), (1, 0)], cost := Cost.val (Frac.ofInt 1),
             nodes_expanded := 1, success := true } := by
  exact ⟨by decide, by decide⟩

/-!  Heap multiset lemmas: the sift routines permute, a push adds its
item, a pop removes the returned root. -/

/-- Replacing position `m` by `y` while holding `x` is, up to
permutation, the same as replacing it by `x` while holding `y`. -/
theorem cons_set_swap : ∀ (l : List Cell) (m : ℕ) (x y : Cell), m < l.length →
    List.Perm (x :: l.set m y) (y :: l.set m x)
  | [], m, _, _, h => absurd h (by simp)
  | hd :: tl, 0, x, y, _ => by
    simpa using List.Perm.swap y x tl
  | hd :: tl, m + 1, x, y, h => by
    simp only [List.set_cons_succ]
    have ih := cons_set_swap tl m x y (by simpa using h)
    exact (List.Perm.swap hd x _).trans
      ((List.Perm.cons hd ih).trans (List.Perm.swap y hd _))

theorem set_getD_self : ∀ (l : List Cell) (m : ℕ), m < l.length →
    l.set m (l.getD m (0, 0)) = l
  | [], m, h => absurd h (by simp)
  | hd :: tl, 0, _ => rfl
  | hd :: tl, m + 1, h => by
    simp only [List.getD_cons_succ, List.set_cons_succ]
    rw [set_getD_self tl m (by simpa using h)]

/-- Writing `a` over the copy created by `l.set i l[j]` is, up to
permutation, just writing `a` at `i`. -/
theorem set_set_perm : ∀ (l : List Cell) (i j : ℕ) (a : Cell), i ≠ j →
    i < l.length → j < l.length →
    List.Perm ((l.set i (l.getD j (0, 0))).set j a) (l.set i a)
  | [], i, _, _, _, hi, _ => absurd hi (by simp)
  | hd :: tl, 0, 0, a, hij, _, _ => absurd rfl hij
  | hd :: tl, 0, j + 1, a, _, _, hj => by
    simp only [List.getD_cons_succ, List.set_cons_zero, List.set_cons_succ]
    have h1 := cons_set_swap tl j (tl.getD j (0, 0)) a (by simpa using hj)
    have h2 := set_getD_self tl j (by simpa using hj)
    rw [h2] at h1
    exact h1
  | hd :: tl, i + 1, 0, a, _, hi, _ => by
    simp only [List.getD_cons_zero, List.set_cons_succ, List.set_cons_zero]
    exact cons_set_swap tl i a hd (by simpa using hi)
  | hd :: tl, i + 1, j + 1, a, hij, hi, hj => by
    simp only [List.getD_cons_succ, List.set_cons_succ]
    exact List.Perm.cons hd
      (set_set_perm tl i j a (by omega) (by simpa using hi) (by simpa using hj))

theorem siftdownHeap_perm (s : NodeStore) :
    ∀ (fuel : ℕ) (heap : List Cell) (sp pos : ℕ) (item : Cell), pos < heap.length →
    List.Perm (siftdownHeap s fuel heap sp pos item) (heap.set pos item)
  | 0, heap, sp, pos, item, h => List.Perm.refl _
  | fuel + 1, heap, sp, pos, item, h => by
    unfold siftdownHeap
    split
    · rename_i hsp
      split
      · have hd2 : (pos - 1) / 2 ≤ pos - 1 := Nat.div_le_self _ _
        have hpp : (pos - 1) / 2 < heap.length := by omega
        have hrec := siftdownHeap_perm s fuel
          (heap.set pos (heap.getD ((pos - 1) / 2) (0, 0))) sp ((pos - 1) / 2) item
          (by simpa using hpp)
        refine hrec.trans ?_
        exact set_set_perm heap pos ((pos - 1) / 2) item (by omega) h hpp
      · exact List.Perm.refl _
    · exact List.Perm.refl _

theorem siftupHeap_perm (s : NodeStore) :
    ∀ (fuel : ℕ) (heap : List Cell) (endpos sp pos : ℕ) (item : Cell),
      endpos ≤ heap.length → pos < heap.length →
      List.Perm (siftupHeap s fuel heap endpos sp pos item) (heap.set pos item)
  | 0, heap, endpos, sp, pos, item, _, _ => List.Perm.refl _
  | fuel + 1, heap, endpos, sp, pos, item, hend, hpos => by
    unfold siftupHeap
    split
    · rename_i hlt
      have hcge : 2 * pos + 1 ≤ pickChild s heap endpos (2 * pos + 1) := by
        unfold pickChild; split <;> omega
      have hclt : pickChild s heap endpos (2 * pos + 1) < endpos := by
        unfold pickChild; split
        · rename_i hc
          have hc1 := of_decide_eq_true ((Bool.and_eq_true _ _).mp hc).1
          omega
        · exact hlt
      have hrec := siftupHeap_perm s fuel
        (heap.set pos (heap.getD (pickChild s heap endpos (2 * pos + 1)) (0, 0)))
        endpos sp (pickChild s heap endpos (2 * pos + 1)) item
        (by rw [List.length_set]; exact hend) (by rw [List.length_set]; omega)
      refine hrec.trans ?_
      exact set_set_perm heap pos (pickChild s heap endpos (2 * pos + 1)) item
        (by omega) hpos (by omega)
    · exact siftdownHeap_perm s (pos + 1) heap sp pos item hpos

theorem set_append_length : ∀ (l : List Cell) (x y : Cell),
    (l ++ [x]).set l.length y = l ++ [y]
  | [], _, _ => rfl
  | hd :: tl, x, y => by
    simp only [List.cons_append, List.length_cons, List.set_cons_succ]
    rw [set_append_length tl x y]

theorem heapPush_perm (s : NodeStore) (heap : List Cell) (item : Cell) :
    List.Perm (heapPush s heap item) (heap ++ [item]) := by
  unfold heapPush
  have h := siftdownHeap_perm s (heap.length + 1) (heap ++ [item]) 0 heap.length item
    (by simp only [List.length_append, List.length_singleton]; omega)
  rw [set_append_length] at h
  exact h

theorem heapPop_perm (s : NodeStore) (heap : List Cell) (p : Cell) (h' : List Cell)
    (hpop : heapPop s heap = some (p, h')) : List.Perm heap (p :: h') := by
  cases heap with
  | nil => simp [heapPop] at hpop
  | cons a tl =>
    cases tl with
    | nil =>
      simp only [heapPop] at hpop
      obtain ⟨h1, h2⟩ := Prod.mk.inj (Option.some.inj hpop)
      subst h1; subst h2
      exact List.Perm.refl _
    | cons b rest =>
      simp only [heapPop] at hpop
      obtain ⟨h1, h2⟩ := Prod.mk.inj (Option.some.inj hpop)
      subst h1; subst h2
      have hlast : (a :: b :: rest).dropLast ++ [(a :: b :: rest).getLast (by simp)] =
          a :: b :: rest := List.dropLast_append_getLast (by simp)
      have hlen0 : 0 < (a :: b :: rest).dropLast.length := by simp
      have hperm1 := siftupHeap_perm s ((a :: b :: rest).dropLast.length + 1)
        ((a :: b :: rest).dropLast.set 0 ((a :: b :: rest).getLast (by simp)))
        (a :: b :: rest).dropLast.length 0 0 ((a :: b :: rest).getLast (by simp))
        (by rw [List.length_set]) (by rw [List.length_set]; exact hlen0)
      rw [List.set_set] at hperm1
      have htail : (a :: b :: rest).dropLast = a :: (b :: rest).dropLast := rfl
      refine List.Perm.trans ?_ (List.Perm.cons a hperm1.symm)
      rw [htail, List.set_cons_zero]
      conv_lhs => rw [← hlast, htail]
      rw [List.cons_append]
      exact List.Perm.cons a (List.perm_append_singleton _ _)
theorem store_update_self (s : NodeStore) (c : Cell) (nd : NodeRec) :
    s.update c nd c = some nd := by simp [NodeStore.update]

theorem store_update_ne (s : NodeStore) (c p : Cell) (nd : NodeRec) (h : p ≠ c) :
    s.update c nd p = s p := by simp [NodeStore.update, h]

theorem mem_heapPush (s : NodeStore) (heap : List Cell) (item p : Cell) :
    p ∈ heapPush s heap item ↔ p ∈ heap ∨ p = item := by
  rw [(heapPush_perm s heap item).mem_iff]
  simp

theorem heapPop_none (s : NodeStore) (heap : List Cell) :
    heapPop s heap = none → heap = [] := by
  intro h
  cases heap with
  | nil => rfl
  | cons a tl =>
    cases tl with
    | nil => simp [heapPop] at h
    | cons b rest => simp [heapPop] at h

theorem heapPop_mem (s : NodeStore) (heap heap' : List Cell) (p : Cell)
    (hpop : heapPop s heap = some (p, heap')) :
    p ∈ heap ∧ (∀ q ∈ heap', q ∈ heap) ∧ (∀ q ∈ heap, q = p ∨ q ∈ heap') := by
  have hperm := heapPop_perm s heap p heap' hpop
  refine ⟨hperm.mem_iff.mpr (by simp), ?_, ?_⟩
  · intro q hq
    exact hperm.mem_iff.mpr (by simp [hq])
  · intro q hq
    have := hperm.mem_iff.mp hq
    simpa using this

theorem neighbors_spec (gw : GridWorld) (x y t : ℤ) (n : Cell) :
    n ∈ gw.get_neighbors x y t ↔
      (∃ d ∈ directions, n = (x + d.1, y + d.2)) ∧
      gw.is_valid_position n.1 n.2 = true ∧ gw.is_obstacle n.1 n.2 t = false := by
  unfold GridWorld.get_neighbors
  rw [List.mem_filter, List.mem_map]
  constructor
  · rintro ⟨⟨d, hd, rfl⟩, hf⟩
    rcases Bool.and_eq_true _ _ |>.mp hf with ⟨h1, h2⟩
    exact ⟨⟨d, hd, rfl⟩, h1, by simpa using h2⟩
  · rintro ⟨⟨d, hd, rfl⟩, h1, h2⟩
    exact ⟨⟨d, hd, rfl⟩, by simp [h1, h2]⟩

theorem neighbors_adj (gw : GridWorld) (x y t : ℤ) (n : Cell)
    (h : n ∈ gw.get_neighbors x y t) : Adj (x, y) n := by
  obtain ⟨⟨d, hd, rfl⟩, -, -⟩ := (neighbors_spec gw x y t n).mp h
  unfold directions at hd
  simp only [List.mem_cons, List.not_mem_nil, or_false] at hd
  rcases hd with rfl | rfl | rfl | rfl <;> simp [Adj]

theorem reachN_step (gw : GridWorld) (t : ℤ) (s : Cell) (k : ℕ) (q p : Cell)
    (hq : q ∈ reachN gw t s k) (hp : p ∈ gw.get_neighbors q.1 q.2 t) :
    p ∈ reachN gw t s (k + 1) := by
  show p ∈ reachN gw t s k ∪ (reachN gw t s k).biUnion _
  rw [Finset.mem_union]
  right
  rw [Finset.mem_biUnion]
  exact ⟨q, hq, by simpa using hp⟩

theorem reachN_mono_succ (gw : GridWorld) (t : ℤ) (s : Cell) (k : ℕ) :
    reachN gw t s k ⊆ reachN gw t s (k + 1) := by
  intro p hp
  show p ∈ reachN gw t s k ∪ (reachN gw t s k).biUnion _
  rw [Finset.mem_union]
  exact Or.inl hp


theorem update_some_mono (s : NodeStore) (c : Cell) (nd : NodeRec) (p : Cell)
    (h : (s p).isSome) : (s.update c nd p).isSome := by
  by_cases hp : p = c
  · subst hp; rw [store_update_self]; rfl
  · rw [store_update_ne _ _ _ _ hp]; exact h

/-- Preservation of `ExpInv` by the two updating branches of
`relaxNeighbor` (improve-and-repush / create-and-push). -/
theorem relax_update_pres (gw : GridWorld) (t : ℤ) (start goal curPos : Cell)
    (cnd ndNew : NodeRec) (st : SState) (npos : Cell)
    (hinv : ExpInv gw t start goal curPos cnd st)
    (hnb : npos ∈ gw.get_neighbors curPos.1 curPos.2 t)
    (hcl : npos ∉ st.closed)
    (hg : ndNew.g_cost = cnd.g_cost + gw.get_terrain_cost npos.1 npos.2)
    (hpar : ndNew.parent = some curPos) :
    ExpInv gw t start goal curPos cnd
      { st with store := st.store.update npos ndNew,
                heap := heapPush (st.store.update npos ndNew) st.heap npos } := by
  have hcurne : curPos ≠ npos := fun e => hcl (e ▸ hinv.cur_closed)
  constructor
  case start_some =>
    dsimp only
    exact update_some_mono _ _ _ _ hinv.start_some
  case parent_none =>
    intro p nd' hp hnone
    dsimp only at hp
    by_cases hpn : p = npos
    · subst hpn
      rw [store_update_self] at hp
      cases Option.some.inj hp
      rw [hpar] at hnone
      exact absurd hnone (by simp)
    · rw [store_update_ne _ _ _ _ hpn] at hp
      exact hinv.parent_none p nd' hp hnone
  case parent_link =>
    intro p nd' q hp hq
    dsimp only at hp ⊢
    by_cases hpn : p = npos
    · subst hpn
      rw [store_update_self] at hp
      cases Option.some.inj hp
      rw [hpar] at hq
      cases Option.some.inj hq
      refine ⟨cnd, ?_, hinv.cur_closed, hnb, hg⟩
      rw [store_update_ne _ _ _ _ hcurne]
      exact hinv.cur_store
    · rw [store_update_ne _ _ _ _ hpn] at hp
      obtain ⟨qd, hqd, hqcl, hqnb, hqg⟩ := hinv.parent_link p nd' q hp hq
      have hqne : q ≠ npos := fun e => hcl (e ▸ hqcl)
      exact ⟨qd, by rw [store_update_ne _ _ _ _ hqne]; exact hqd, hqcl, hqnb, hqg⟩
  case closed_some =>
    intro p hp
    dsimp only at hp ⊢
    exact update_some_mono _ _ _ _ (hinv.closed_some p hp)
  case closed_not_goal =>
    dsimp only
    exact hinv.closed_not_goal
  case closed_exp' =>
    intro p hp hpne n hn
    dsimp only at hp ⊢
    exact update_some_mono _ _ _ _ (hinv.closed_exp' p hp hpne n hn)
  case reach =>
    intro p hp
    dsimp only at hp
    by_cases hpn : p = npos
    · subst hpn
      obtain ⟨k, hk⟩ := hinv.reach curPos (by rw [hinv.cur_store]; rfl)
      exact ⟨k + 1, reachN_step gw t start k curPos p hk hnb⟩
    · rw [store_update_ne _ _ _ _ hpn] at hp
      exact hinv.reach p hp
  case card_le =>
    dsimp only
    exact hinv.card_le
  case pos_ok =>
    intro p hp
    dsimp only at hp
    by_cases hpn : p = npos
    · subst hpn
      exact Or.inr ((neighbors_spec gw curPos.1 curPos.2 t p).mp hnb).2.1
    · rw [store_update_ne _ _ _ _ hpn] at hp
      exact hinv.pos_ok p hp
  case heap_some =>
    intro p hp
    dsimp only at hp ⊢
    rcases (mem_heapPush _ _ _ _).mp hp with hold | rfl
    · exact update_some_mono _ _ _ _ (hinv.heap_some p hold)
    · rw [store_update_self]; rfl
  case cover =>
    intro p hp
    dsimp only at hp ⊢
    by_cases hpn : p = npos
    · subst hpn
      exact Or.inr ((mem_heapPush _ _ _ _).mpr (Or.inr rfl))
    · rw [store_update_ne _ _ _ _ hpn] at hp
      rcases hinv.cover p hp with hc | hh
      · exact Or.inl hc
      · exact Or.inr ((mem_heapPush _ _ _ _).mpr (Or.inl hh))
  case cur_closed =>
    dsimp only
    exact hinv.cur_closed
  case cur_store =>
    dsimp only
    rw [store_update_ne _ _ _ _ hcurne]
    exact hinv.cur_store

/-- `relaxNeighbor` preserves the expansion invariant; moreover it never
erases store entries, leaves `npos` known, and changes neither the
closed set nor the expansion counter. -/
theorem relax_pres (gw : GridWorld) (hfun : Cell → Cell → Frac) (t : ℤ)
    (start goal curPos : Cell) (cnd : NodeRec) (st : SState) (npos : Cell)
    (hinv : ExpInv gw t start goal curPos cnd st)
    (hnb : npos ∈ gw.get_neighbors curPos.1 curPos.2 t) :
    ExpInv gw t start goal curPos cnd
      (relaxNeighbor gw hfun goal curPos cnd.g_cost st npos) ∧
    (∀ p, (st.store p).isSome →
      ((relaxNeighbor gw hfun goal curPos cnd.g_cost st npos).store p).isSome) ∧
    ((relaxNeighbor gw hfun goal curPos cnd.g_cost st npos).store npos).isSome ∧
    (relaxNeighbor gw hfun goal curPos cnd.g_cost st npos).closed = st.closed ∧
    (relaxNeighbor gw hfun goal curPos cnd.g_cost st npos).nodes_expanded =
      st.nodes_expanded := by
  unfold relaxNeighbor
  by_cases hcl : npos ∈ st.closed
  · rw [if_pos hcl]
    exact ⟨hinv, fun p h => h, hinv.closed_some npos hcl, rfl, rfl⟩
  · rw [if_neg hcl]
    cases hsn : st.store npos with
    | some nd =>
      dsimp only
      by_cases himp :
          Cost.blt (cnd.g_cost + gw.get_terrain_cost npos.1 npos.2) nd.g_cost = true
      · rw [if_pos himp]
        refine ⟨relax_update_pres gw t start goal curPos cnd _ st npos hinv hnb hcl
          rfl rfl, ?_, ?_, rfl, rfl⟩
        · intro p hp
          exact update_some_mono _ _ _ _ hp
        · dsimp only
          rw [store_update_self]; rfl
      · rw [if_neg himp]
        exact ⟨hinv, fun p h => h, by rw [hsn]; rfl, rfl, rfl⟩
    | none =>
      dsimp only
      refine ⟨relax_update_pres gw t start goal curPos cnd _ st npos hinv hnb hcl
        rfl rfl, ?_, ?_, rfl, rfl⟩
      · intro p hp
        exact update_some_mono _ _ _ _ hp
      · dsimp only
        rw [store_update_self]; rfl

/-- Folding `relaxNeighbor` over (a sublist of) the neighbor list
preserves the expansion invariant, keeps every processed neighbor known,
and never erases entries or touches closed/counter. -/
theorem fold_relax_pres (gw : GridWorld) (hfun : Cell → Cell → Frac) (t : ℤ)
    (start goal curPos : Cell) (cnd : NodeRec) :
    ∀ (L : List Cell) (st : SState),
    ExpInv gw t start goal curPos cnd st →
    (∀ n ∈ L, n ∈ gw.get_neighbors curPos.1 curPos.2 t) →
    ExpInv gw t start goal curPos cnd
      (L.foldl (relaxNeighbor gw hfun goal curPos cnd.g_cost) st) ∧
    (∀ p, (st.store p).isSome →
      ((L.foldl (relaxNeighbor gw hfun goal curPos cnd.g_cost) st).store p).isSome) ∧
    (∀ n ∈ L,
      ((L.foldl (relaxNeighbor gw hfun goal curPos cnd.g_cost) st).store n).isSome) ∧
    (L.foldl (relaxNeighbor gw hfun goal curPos cnd.g_cost) st).closed = st.closed ∧
    (L.foldl (relaxNeighbor gw hfun goal curPos cnd.g_cost) st).nodes_expanded =
      st.nodes_expanded
  | [], st, hinv, _ =>
    ⟨hinv, fun _ h => h, fun n hn => absurd hn (by simp), rfl, rfl⟩
  | n :: rest, st, hinv, hL => by
    have hn := hL n (by simp)
    obtain ⟨hinv1, hmono1, hsome1, hcl1, hne1⟩ :=
      relax_pres gw hfun t start goal curPos cnd st n hinv hn
    obtain ⟨hinv2, hmono2, hsome2, hcl2, hne2⟩ :=
      fold_relax_pres gw hfun t start goal curPos cnd rest
        (relaxNeighbor gw hfun goal curPos cnd.g_cost st n) hinv1
        (fun m hm => hL m (by simp [hm]))
    rw [List.foldl_cons]
    refine ⟨hinv2, fun p hp => hmono2 p (hmono1 p hp), ?_, by rw [hcl2, hcl1],
      by rw [hne2, hne1]⟩
    intro m hm
    rcases List.mem_cons.mp hm with rfl | hm'
    · exact hmono2 m hsome1
    · exact hsome2 m hm'

/-- One full expansion step preserves the loop invariant. -/
theorem expand_pres (gw : GridWorld) (hfun : Cell → Cell → Frac) (t : ℤ)
    (start goal : Cell) (st : SState) (pos : Cell) (heap' : List Cell)
    (hinv : LoopInv gw t start goal st)
    (hpop : heapPop st.store st.heap = some (pos, heap'))
    (hng : pos ≠ goal) :
    LoopInv gw t start goal
      (expandNode gw hfun goal t { st with heap := heap' } pos) := by
  obtain ⟨hmem, hsub, hsplit⟩ := heapPop_mem st.store st.heap heap' pos hpop
  have hpos_some : (st.store pos).isSome := hinv.heap_some pos hmem
  obtain ⟨cnd, hcnd⟩ := Option.isSome_iff_exists.mp hpos_some
  have hexp : expandNode gw hfun goal t { st with heap := heap' } pos =
      (gw.get_neighbors pos.1 pos.2 t).foldl
        (relaxNeighbor gw hfun goal pos cnd.g_cost)
        { st with heap := heap', closed := insert pos st.closed,
                  nodes_expanded := st.nodes_expanded + 1 } := by
    unfold expandNode
    dsimp only
    rw [hcnd]
  rw [hexp]
  -- the pre-fold state satisfies the expansion invariant
  have hinv1 : ExpInv gw t start goal pos cnd
      { st with heap := heap', closed := insert pos st.closed,
                nodes_expanded := st.nodes_expanded + 1 } := by
    constructor
    case start_some => exact hinv.start_some
    case parent_none => exact hinv.parent_none
    case parent_link =>
      intro p nd q hp hq
      obtain ⟨qd, hqd, hqcl, hqnb, hqg⟩ := hinv.parent_link p nd q hp hq
      exact ⟨qd, hqd, Finset.mem_insert_of_mem hqcl, hqnb, hqg⟩
    case closed_some =>
      intro p hp
      rcases Finset.mem_insert.mp hp with rfl | hp'
      · exact hpos_some
      · exact hinv.closed_some p hp'
    case closed_not_goal =>
      dsimp only
      intro hgo
      rcases Finset.mem_insert.mp hgo with e | hgo'
      · exact hng e.symm
      · exact hinv.closed_not_goal hgo'
    case closed_exp' =>
      intro p hp hpne n hn
      rcases Finset.mem_insert.mp hp with rfl | hp'
      · exact absurd rfl hpne
      · exact hinv.closed_exp p hp' n hn
    case reach => exact hinv.reach
    case card_le =>
      dsimp only
      calc (insert pos st.closed).card ≤ st.closed.card + 1 :=
            Finset.card_insert_le _ _
        _ ≤ st.nodes_expanded + 1 := by
            have := hinv.card_le; omega
    case pos_ok => exact hinv.pos_ok
    case heap_some =>
      intro p hp
      exact hinv.heap_some p (hsub p hp)
    case cover =>
      intro p hp
      rcases hinv.cover p hp with hc | hh
      · exact Or.inl (Finset.mem_insert_of_mem hc)
      · rcases hsplit p hh with rfl | hh'
        · exact Or.inl (Finset.mem_insert_self _ _)
        · exact Or.inr hh'
    case cur_closed => exact Finset.mem_insert_self _ _
    case cur_store => exact hcnd
  obtain ⟨hinv2, -, hall, hcl2, -⟩ :=
    fold_relax_pres gw hfun t start goal pos cnd (gw.get_neighbors pos.1 pos.2 t)
      _ hinv1 (fun n hn => hn)
  constructor
  case heap_some => exact hinv2.heap_some
  case cover => exact hinv2.cover
  constructor
  case start_some => exact hinv2.start_some
  case parent_none => exact hinv2.parent_none
  case parent_link => exact hinv2.parent_link
  case closed_some => exact hinv2.closed_some
  case closed_not_goal => exact hinv2.closed_not_goal
  case reach => exact hinv2.reach
  case card_le => exact hinv2.card_le
  case pos_ok => exact hinv2.pos_ok
  case closed_exp =>
    intro p hp n hn
    rw [hcl2] at hp
    by_cases hppos : p = pos
    · subst hppos
      exact hall n hn
    · have hp' : p ∈ st.closed := by
        rcases Finset.mem_insert.mp hp with e | h
        · exact absurd e hppos
        · exact h
      exact hinv2.closed_exp' p (by rw [hcl2]; exact Finset.mem_insert_of_mem hp')
        hppos n hn

/-- The initial state of a search satisfies the loop invariant. -/
theorem init_inv (gw : GridWorld) (hfun : Cell → Cell → Frac) (t : ℤ)
    (start goal : Cell) : LoopInv gw t start goal (initState hfun start goal) := by
  have hstore : ∀ p, (initState hfun start goal).store p =
      if p = start then
        some { g_cost := Cost.val (Frac.ofInt 0), h_cost := hfun start goal,
               parent := none }
      else none := fun p => rfl
  have hheap : (initState hfun start goal).heap = [start] := rfl
  have hclosed : (initState hfun start goal).closed = ∅ := rfl
  constructor
  case heap_some =>
    intro p hp
    rw [hheap] at hp
    rcases List.mem_singleton.mp hp with rfl
    rw [hstore, if_pos rfl]; rfl
  case cover =>
    intro p hp
    rw [hstore] at hp
    by_cases hps : p = start
    · subst hps; exact Or.inr (by rw [hheap]; simp)
    · rw [if_neg hps] at hp; exact absurd hp (by simp)
  constructor
  case start_some => rw [hstore, if_pos rfl]; rfl
  case parent_none =>
    intro p nd hp _
    rw [hstore] at hp
    by_cases hps : p = start
    · subst hps
      rw [if_pos rfl] at hp
      cases Option.some.inj hp
      exact ⟨rfl, rfl⟩
    · rw [if_neg hps] at hp; exact absurd hp (by simp)
  case parent_link =>
    intro p nd q hp hq
    rw [hstore] at hp
    by_cases hps : p = start
    · subst hps
      rw [if_pos rfl] at hp
      cases Option.some.inj hp
      exact absurd hq (by simp)
    · rw [if_neg hps] at hp; exact absurd hp (by simp)
  case closed_some =>
    intro p hp
    rw [hclosed] at hp
    exact absurd hp (Finset.not_mem_empty p)
  case closed_not_goal =>
    rw [hclosed]
    exact Finset.not_mem_empty goal
  case closed_exp =>
    intro p hp
    rw [hclosed] at hp
    exact absurd hp (Finset.not_mem_empty p)
  case reach =>
    intro p hp
    rw [hstore] at hp
    by_cases hps : p = start
    · subst hps
      exact ⟨0, Finset.mem_singleton.mpr rfl⟩
    · rw [if_neg hps] at hp; exact absurd hp (by simp)
  case card_le =>
    rw [hclosed]
    simp
  case pos_ok =>
    intro p hp
    rw [hstore] at hp
    by_cases hps : p = start
    · exact Or.inl hps
    · rw [if_neg hps] at hp; exact absurd hp (by simp)

/-- `StoreInv` ignores the heap. -/
theorem storeInv_setHeap (gw : GridWorld) (t : ℤ) (start goal : Cell) (st : SState)
    (heap' : List Cell) (h : StoreInv gw t start goal st) :
    StoreInv gw t start goal { st with heap := heap' } :=
  ⟨h.start_some, h.parent_none, h.parent_link, h.closed_some, h.closed_not_goal,
   h.closed_exp, h.reach, h.card_le, h.pos_ok⟩

/-- Exit analysis of the search loop: the invariant holds at the final
state, and the returned record matches exactly one of the two return
sites of the Python loop. -/
theorem searchLoop_spec (gw : GridWorld) (hfun : Cell → Cell → Frac) (t : ℤ)
    (start goal : Cell) :
    ∀ (fuel : ℕ) (st : SState) (r : SearchResult) (stf : SState),
    LoopInv gw t start goal st →
    searchLoop gw hfun goal t fuel st = some (r, stf) →
    StoreInv gw t start goal stf ∧ r.nodes_expanded = stf.nodes_expanded ∧
    ((r.success = true ∧ ∃ nd, stf.store goal = some nd ∧ r.cost = nd.g_cost ∧
        r.path = (chainAux stf.store goal (stf.nodes_expanded + 2)).reverse) ∨
     (r.success = false ∧ r.path = [] ∧ r.cost = Cost.inf ∧
        ∀ p, (stf.store p).isSome → p ∈ stf.closed))
  | 0, st, r, stf, _, h => absurd h (by simp [searchLoop])
  | fuel + 1, st, r, stf, hinv, h => by
    rw [searchLoop] at h
    cases hpop : heapPop st.store st.heap with
    | none =>
      rw [hpop] at h
      dsimp only at h
      obtain ⟨h1, h2⟩ := Prod.mk.inj (Option.some.inj h)
      subst h1; subst h2
      refine ⟨hinv.toStoreInv, rfl, Or.inr ⟨rfl, rfl, rfl, ?_⟩⟩
      intro p hp
      rcases hinv.cover p hp with hc | hh
      · exact hc
      · rw [heapPop_none _ _ hpop] at hh
        exact absurd hh (by simp)
    | some pr =>
      obtain ⟨pos, heap'⟩ := pr
      rw [hpop] at h
      dsimp only at h
      by_cases hpg : pos = goal
      · rw [if_pos hpg] at h
        subst hpg
        obtain ⟨hmem, -, -⟩ := heapPop_mem st.store st.heap heap' pos hpop
        have hsome : (st.store pos).isSome := hinv.heap_some pos hmem
        obtain ⟨nd, hnd⟩ := Option.isSome_iff_exists.mp hsome
        rw [hnd] at h
        dsimp only at h
        obtain ⟨h1, h2⟩ := Prod.mk.inj (Option.some.inj h)
        subst h1; subst h2
        exact ⟨storeInv_setHeap gw t start pos st heap' hinv.toStoreInv, rfl,
          Or.inl ⟨rfl, nd, hnd, rfl, rfl⟩⟩
      · rw [if_neg hpg] at h
        exact searchLoop_spec gw hfun t start goal fuel _ r stf
          (expand_pres gw hfun t start goal st pos heap' hinv hpop hpg) h

/-- A state predicate preserved by the expansion step and by heap
replacement is preserved by the whole loop. -/
theorem searchLoop_preserve (gw : GridWorld) (hfun : Cell → Cell → Frac) (t : ℤ)
    (start goal : Cell) (P : SState → Prop)
    (hP_expand : ∀ st pos heap', LoopInv gw t start goal st →
      heapPop st.store st.heap = some (pos, heap') → pos ≠ goal → P st →
      P (expandNode gw hfun goal t { st with heap := heap' } pos))
    (hP_heap : ∀ st heap', P st → P { st with heap := heap' }) :
    ∀ (fuel : ℕ) (st : SState) (r : SearchResult) (stf : SState),
    LoopInv gw t start goal st → P st →
    searchLoop gw hfun goal t fuel st = some (r, stf) → P stf
  | 0, st, r, stf, _, _, h => absurd h (by simp [searchLoop])
  | fuel + 1, st, r, stf, hinv, hP, h => by
    rw [searchLoop] at h
    cases hpop : heapPop st.store st.heap with
    | none =>
      rw [hpop] at h
      dsimp only at h
      obtain ⟨h1, h2⟩ := Prod.mk.inj (Option.some.inj h)
      subst h2
      exact hP
    | some pr =>
      obtain ⟨pos, heap'⟩ := pr
      rw [hpop] at h
      dsimp only at h
      by_cases hpg : pos = goal
      · rw [if_pos hpg] at h
        subst hpg
        obtain ⟨hmem, -, -⟩ := heapPop_mem st.store st.heap heap' pos hpop
        obtain ⟨nd, hnd⟩ :=
          Option.isSome_iff_exists.mp (hinv.heap_some pos hmem)
        rw [hnd] at h
        dsimp only at h
        obtain ⟨h1, h2⟩ := Prod.mk.inj (Option.some.inj h)
        subst h2
        exact hP_heap st heap' hP
      · rw [if_neg hpg] at h
        exact searchLoop_preserve gw hfun t start goal P hP_expand hP_heap fuel _ r stf
          (expand_pres gw hfun t start goal st pos heap' hinv hpop hpg)
          (hP_expand st pos heap' hinv hpop hpg hP) h

/-- Each relaxation touches only its own neighbor's entry, writing the
tentative cost and the expanded parent. -/
theorem relax_store_char (gw : GridWorld) (hfun : Cell → Cell → Frac)
    (goal curPos : Cell) (curG : Cost) (st : SState) (npos : Cell) :
    ∀ p nd, (relaxNeighbor gw hfun goal curPos curG st npos).store p = some nd →
      st.store p = some nd ∨
      (p = npos ∧ nd.g_cost = curG + gw.get_terrain_cost npos.1 npos.2 ∧
        nd.parent = some curPos) := by
  intro p nd hp
  unfold relaxNeighbor at hp
  by_cases hcl : npos ∈ st.closed
  · rw [if_pos hcl] at hp
    exact Or.inl hp
  · rw [if_neg hcl] at hp
    cases hsn : st.store npos with
    | some nd0 =>
      rw [hsn] at hp
      dsimp only at hp
      by_cases himp :
          Cost.blt (curG + gw.get_terrain_cost npos.1 npos.2) nd0.g_cost = true
      · rw [if_pos himp] at hp
        dsimp only at hp
        by_cases hpn : p = npos
        · subst hpn
          rw [store_update_self] at hp
          cases Option.some.inj hp
          exact Or.inr ⟨rfl, rfl, rfl⟩
        · rw [store_update_ne _ _ _ _ hpn] at hp
          exact Or.inl hp
      · rw [if_neg himp] at hp
        exact Or.inl hp
    | none =>
      rw [hsn] at hp
      dsimp only at hp
      by_cases hpn : p = npos
      · subst hpn
        rw [store_update_self] at hp
        cases Option.some.inj hp
        exact Or.inr ⟨rfl, rfl, rfl⟩
      · rw [store_update_ne _ _ _ _ hpn] at hp
        exact Or.inl hp

theorem fold_store_char (gw : GridWorld) (hfun : Cell → Cell → Frac)
    (goal curPos : Cell) (curG : Cost) :
    ∀ (L : List Cell) (st : SState) (p : Cell) (nd : NodeRec),
    (L.foldl (relaxNeighbor gw hfun goal curPos curG) st).store p = some nd →
      st.store p = some nd ∨
      (p ∈ L ∧ nd.g_cost = curG + gw.get_terrain_cost p.1 p.2 ∧
        nd.parent = some curPos)
  | [], st, p, nd, h => Or.inl h
  | n :: rest, st, p, nd, h => by
    rw [List.foldl_cons] at h
    rcases fold_store_char gw hfun goal curPos curG rest _ p nd h with h1 | ⟨hm, hg, hp⟩
    · rcases relax_store_char gw hfun goal curPos curG st n p nd h1 with h2 | ⟨rfl, hg, hp⟩
      · exact Or.inl h2
      · exact Or.inr ⟨by simp, hg, hp⟩
    · exact Or.inr ⟨by simp [hm], hg, hp⟩

/-- New store entries created by an expansion are exactly relaxations of
the expanded cell's neighbors, at tentative cost from the expanded
cell's own record. -/
theorem expand_store_char (gw : GridWorld) (hfun : Cell → Cell → Frac) (t : ℤ)
    (goal : Cell) (st : SState) (pos : Cell) (cnd : NodeRec)
    (hcnd : st.store pos = some cnd) :
    ∀ p nd, (expandNode gw hfun goal t st pos).store p = some nd →
      st.store p = some nd ∨
      (p ∈ gw.get_neighbors pos.1 pos.2 t ∧
        nd.g_cost = cnd.g_cost + gw.get_terrain_cost p.1 p.2 ∧
        nd.parent = some pos) := by
  intro p nd hp
  have hexp : expandNode gw hfun goal t st pos =
      (gw.get_neighbors pos.1 pos.2 t).foldl
        (relaxNeighbor gw hfun goal pos cnd.g_cost)
        { st with closed := insert pos st.closed,
                  nodes_expanded := st.nodes_expanded + 1 } := by
    unfold expandNode
    dsimp only
    rw [hcnd]
  rw [hexp] at hp
  rcases fold_store_char gw hfun goal pos cnd.g_cost _ _ p nd hp with h1 | hnew
  · exact Or.inl h1
  · exact Or.inr hnew

/-- Every position ever stored stays inside a neighbor-closed separator
set containing the start. -/
theorem searchLoop_inS (gw : GridWorld) (hfun : Cell → Cell → Frac) (t : ℤ)
    (start goal : Cell) (S : Finset Cell)
    (hclosure : ∀ p ∈ S, ∀ n ∈ gw.get_neighbors p.1 p.2 t, n ∈ S)
    (fuel : ℕ) (st : SState) (r : SearchResult) (stf : SState)
    (hinv : LoopInv gw t start goal st)
    (hS : ∀ p, (st.store p).isSome → p ∈ S)
    (h : searchLoop gw hfun goal t fuel st = some (r, stf)) :
    ∀ p, (stf.store p).isSome → p ∈ S := by
  refine searchLoop_preserve gw hfun t start goal
    (fun st => ∀ p, (st.store p).isSome → p ∈ S) ?_ ?_ fuel st r stf hinv hS h
  · intro st pos heap' hinv' hpop hpg hP p hp
    obtain ⟨hmem, -, -⟩ := heapPop_mem st.store st.heap heap' pos hpop
    obtain ⟨cnd, hcnd⟩ := Option.isSome_iff_exists.mp (hinv'.heap_some pos hmem)
    obtain ⟨nd, hnd⟩ := Option.isSome_iff_exists.mp hp
    rcases expand_store_char gw hfun t goal { st with heap := heap' } pos cnd hcnd
        p nd hnd with hold | ⟨hnb, -, -⟩
    · exact hP p (by rw [hold]; rfl)
    · exact hclosure pos (hP pos (by rw [hcnd]; rfl)) p hnb
  · intro st heap' hP p hp
    exact hP p hp

/-- If the goal cell is an obstacle on the queried time slice and is not
the start, it never enters the node store. -/
theorem searchLoop_goalNone (gw : GridWorld) (hfun : Cell → Cell → Frac) (t : ℤ)
    (start goal : Cell)
    (hobs : gw.is_obstacle goal.1 goal.2 t = true)
    (fuel : ℕ) (st : SState) (r : SearchResult) (stf : SState)
    (hinv : LoopInv gw t start goal st)
    (hnone : st.store goal = none)
    (h : searchLoop gw hfun goal t fuel st = some (r, stf)) :
    stf.store goal = none := by
  refine searchLoop_preserve gw hfun t start goal
    (fun st => st.store goal = none) ?_ ?_ fuel st r stf hinv hnone h
  · intro st pos heap' hinv' hpop hpg hP
    obtain ⟨hmem, -, -⟩ := heapPop_mem st.store st.heap heap' pos hpop
    obtain ⟨cnd, hcnd⟩ := Option.isSome_iff_exists.mp (hinv'.heap_some pos hmem)
    cases hE : (expandNode gw hfun goal t { st with heap := heap' } pos).store goal with
    | none => rfl
    | some nd =>
      rcases expand_store_char gw hfun t goal { st with heap := heap' } pos cnd hcnd
          goal nd hE with hold | ⟨hnb, -, -⟩
      · rw [hP] at hold
        exact absurd hold (by simp)
      · have hfree := ((neighbors_spec gw pos.1 pos.2 t goal).mp hnb).2.2
        rw [hobs] at hfree
        exact absurd hfree (by simp)
  · intro st heap' hP
    exact hP

theorem frac_ofInt_add (a b : ℤ) :
    (Frac.ofInt a).add (Frac.ofInt b) = Frac.ofInt (a + b) := by
  simp [Frac.add, Frac.ofInt]


theorem searchLoop_gnat (gw : GridWorld) (hfun : Cell → Cell → Frac) (t : ℤ)
    (start goal : Cell) (hunit : UnitTerrain gw t)
    (fuel : ℕ) (st : SState) (r : SearchResult) (stf : SState)
    (hinv : LoopInv gw t start goal st)
    (hg : GNat st)
    (h : searchLoop gw hfun goal t fuel st = some (r, stf)) :
    GNat stf := by
  refine searchLoop_preserve gw hfun t start goal GNat ?_ ?_ fuel st r stf hinv hg h
  · intro st pos heap' hinv' hpop hpg hP p nd hnd
    obtain ⟨hmem, -, -⟩ := heapPop_mem st.store st.heap heap' pos hpop
    obtain ⟨cnd, hcnd⟩ := Option.isSome_iff_exists.mp (hinv'.heap_some pos hmem)
    rcases expand_store_char gw hfun t goal { st with heap := heap' } pos cnd hcnd
        p nd hnd with hold | ⟨hnb, hgc, -⟩
    · exact hP p nd hold
    · obtain ⟨n, hn⟩ := hP pos cnd hcnd
      have hfree := ((neighbors_spec gw pos.1 pos.2 t p).mp hnb).2.2
      have hterr := hunit p.1 p.2 hfree
      refine ⟨n + 1, ?_⟩
      rw [hgc, hn, hterr]
      show Cost.val ((Frac.ofInt n).add (Frac.ofInt 1)) = _
      rw [frac_ofInt_add]
      norm_num
  · intro st heap' hP p nd hnd
    exact hP p nd hnd

theorem init_gnat (hfun : Cell → Cell → Frac) (start goal : Cell) :
    GNat (initState hfun start goal) := by
  intro p nd hp
  have hstore : (initState hfun start goal).store p =
      if p = start then
        some { g_cost := Cost.val (Frac.ofInt 0), h_cost := hfun start goal,
               parent := none }
      else none := rfl
  rw [hstore] at hp
  by_cases hps : p = start
  · rw [if_pos hps] at hp
    cases Option.some.inj hp
    exact ⟨0, rfl⟩
  · rw [if_neg hps] at hp
    exact absurd hp (by simp)

theorem frac_ofInt_inj (a b : ℤ) (h : Frac.ofInt a = Frac.ofInt b) : a = b := by
  simpa [Frac.ofInt] using h

theorem cost_val_ofInt_inj (a b : ℤ)
    (h : Cost.val (Frac.ofInt a) = Cost.val (Frac.ofInt b)) : a = b :=
  frac_ofInt_inj a b (by injection h)

/-- With unit terrain, a node's g-cost is one more than its parent's. -/
theorem g_parent_succ (gw : GridWorld) (t : ℤ) (start goal : Cell) (st : SState)
    (hst : StoreInv gw t start goal st) (hunit : UnitTerrain gw t)
    (p : Cell) (nd : NodeRec) (q : Cell) (qd : NodeRec) (n m : ℕ)
    (hp : st.store p = some nd) (hq : nd.parent = some q)
    (hgn : nd.g_cost = Cost.val (Frac.ofInt n)) :
    ∀ (hqd : st.store q = some qd) (hm : qd.g_cost = Cost.val (Frac.ofInt m))
      (hlink : nd.g_cost = qd.g_cost + gw.get_terrain_cost p.1 p.2)
      (hnb : p ∈ gw.get_neighbors q.1 q.2 t), n = m + 1 := by
  intro hqd hm hlink hnb
  have hfree := ((neighbors_spec gw q.1 q.2 t p).mp hnb).2.2
  have hterr := hunit p.1 p.2 hfree
  rw [hgn, hm, hterr] at hlink
  have hsum : Cost.val (Frac.ofInt m) + Cost.val (Frac.ofInt 1) =
      Cost.val (Frac.ofInt (m + 1)) := by
    show Cost.val ((Frac.ofInt m).add (Frac.ofInt 1)) = _
    rw [frac_ofInt_add]
  rw [hsum] at hlink
  have := cost_val_ofInt_inj n (m + 1) hlink
  omega

/-- The strict ancestors of a node with g-cost `n` form an `n`-element
subset of the closed set. -/
theorem g_card_bound (gw : GridWorld) (t : ℤ) (start goal : Cell) (st : SState)
    (hst : StoreInv gw t start goal st) (hunit : UnitTerrain gw t)
    (hgnat : GNat st) :
    ∀ (n : ℕ) (p : Cell) (nd : NodeRec), st.store p = some nd →
      nd.g_cost = Cost.val (Frac.ofInt n) →
      ∃ S : Finset Cell, S ⊆ st.closed ∧ S.card = n ∧
        ∀ q ∈ S, ∃ (qd : NodeRec) (m : ℕ), st.store q = some qd ∧
          qd.g_cost = Cost.val (Frac.ofInt m) ∧ m < n := by
  intro n
  induction n using Nat.strong_induction_on with
  | _ n ih =>
    intro p nd hp hgn
    cases hpar : nd.parent with
    | none =>
      obtain ⟨-, hg0⟩ := hst.parent_none p nd hp hpar
      rw [hg0] at hgn
      have hn0 : (0 : ℤ) = (n : ℤ) := cost_val_ofInt_inj 0 n hgn
      have : n = 0 := by omega
      subst this
      exact ⟨∅, by simp, by simp, by simp⟩
    | some q =>
      obtain ⟨qd, hqd, hqcl, hqnb, hqg⟩ := hst.parent_link p nd q hp hpar
      obtain ⟨m, hm⟩ := hgnat q qd hqd
      have hnm : n = m + 1 := g_parent_succ gw t start goal st hst hunit p nd q qd
        n m hp hpar hgn hqd hm hqg hqnb
      obtain ⟨S', hsub, hcard, hmem⟩ := ih m (by omega) q qd hqd hm
      have hqnotin : q ∉ S' := by
        intro hq
        obtain ⟨qd', m', hqd', hm', hlt⟩ := hmem q hq
        rw [hqd] at hqd'
        cases Option.some.inj hqd'
        rw [hm] at hm'
        have := cost_val_ofInt_inj m m' hm'
        omega
      refine ⟨insert q S', ?_, ?_, ?_⟩
      · exact Finset.insert_subset hqcl hsub
      · rw [Finset.card_insert_of_not_mem hqnotin, hcard, hnm]
      · intro q' hq'
        rcases Finset.mem_insert.mp hq' with rfl | hq''
        · exact ⟨qd, m, hqd, hm, by omega⟩
        · obtain ⟨qd', m', hqd', hm', hlt⟩ := hmem q' hq''
          exact ⟨qd', m', hqd', hm', by omega⟩

/-- A stored node with g-cost `n` is reachable from the start in `n`
steps. -/
theorem g_reach (gw : GridWorld) (t : ℤ) (start goal : Cell) (st : SState)
    (hst : StoreInv gw t start goal st) (hunit : UnitTerrain gw t)
    (hgnat : GNat st) :
    ∀ (n : ℕ) (p : Cell) (nd : NodeRec), st.store p = some nd →
      nd.g_cost = Cost.val (Frac.ofInt n) → p ∈ reachN gw t start n := by
  intro n
  induction n using Nat.strong_induction_on with
  | _ n ih =>
    intro p nd hp hgn
    cases hpar : nd.parent with
    | none =>
      obtain ⟨rfl, hg0⟩ := hst.parent_none p nd hp hpar
      rw [hg0] at hgn
      have : (0 : ℤ) = (n : ℤ) := cost_val_ofInt_inj 0 n hgn
      have hn : n = 0 := by omega
      subst hn
      exact Finset.mem_singleton.mpr rfl
    | some q =>
      obtain ⟨qd, hqd, hqcl, hqnb, hqg⟩ := hst.parent_link p nd q hp hpar
      obtain ⟨m, hm⟩ := hgnat q qd hqd
      have hnm : n = m + 1 := g_parent_succ gw t start goal st hst hunit p nd q qd
        n m hp hpar hgn hqd hm hqg hqnb
      subst hnm
      exact reachN_step gw t start m q p (ih m (by omega) q qd hqd hm) hqnb

theorem adj_symm (a b : Cell) (h : Adj a b) : Adj b a := by
  unfold Adj at *
  omega

/-- With enough fuel, `chainAux` produces the full parent chain: a
4-connected path of length `g+1` from the node back to the start. -/
theorem chain_spec (gw : GridWorld) (t : ℤ) (start goal : Cell) (st : SState)
    (hst : StoreInv gw t start goal st) (hunit : UnitTerrain gw t)
    (hgnat : GNat st) :
    ∀ (n : ℕ) (p : Cell) (nd : NodeRec) (fuel : ℕ), st.store p = some nd →
      nd.g_cost = Cost.val (Frac.ofInt n) → n < fuel →
      ∃ l, chainAux st.store p fuel = p :: l ∧ (p :: l).length = n + 1 ∧
        (p :: l).getLast? = some start ∧ List.Chain' Adj (p :: l) := by
  intro n
  induction n using Nat.strong_induction_on with
  | _ n ih =>
    intro p nd fuel hp hgn hfuel
    obtain ⟨f, rfl⟩ : ∃ f, fuel = f + 1 := ⟨fuel - 1, by omega⟩
    have hchain : chainAux st.store p (f + 1) =
        p :: (match st.store p with
              | some nd =>
                match nd.parent with
                | some q => chainAux st.store q f
                | none => []
              | none => []) := rfl
    rw [hchain, hp]
    dsimp only
    cases hpar : nd.parent with
    | none =>
      dsimp only
      obtain ⟨rfl, hg0⟩ := hst.parent_none p nd hp hpar
      rw [hg0] at hgn
      have : (0 : ℤ) = (n : ℤ) := cost_val_ofInt_inj 0 n hgn
      have hn : n = 0 := by omega
      subst hn
      exact ⟨[], rfl, rfl, rfl, List.chain'_singleton _⟩
    | some q =>
      dsimp only
      obtain ⟨qd, hqd, hqcl, hqnb, hqg⟩ := hst.parent_link p nd q hp hpar
      obtain ⟨m, hm⟩ := hgnat q qd hqd
      have hnm : n = m + 1 := g_parent_succ gw t start goal st hst hunit p nd q qd
        n m hp hpar hgn hqd hm hqg hqnb
      obtain ⟨l', hl', hlen', hlast', hchain'⟩ :=
        ih m (by omega) q qd f hqd hm (by omega)
      rw [hl']
      refine ⟨q :: l', rfl, ?_, ?_, ?_⟩
      · simp only [List.length_cons] at hlen' ⊢
        omega
      · rw [List.getLast?_cons_cons]
        exact hlast'
      · rw [List.chain'_cons]
        exact ⟨adj_symm _ _ (neighbors_adj gw q.1 q.2 t p hqnb), hchain'⟩

theorem find?_append_some (p : ℕ → Bool) :
    ∀ (l₁ l₂ : List ℕ) (d : ℕ), l₁.find? p = some d → (l₁ ++ l₂).find? p = some d
  | [], _, _, h => absurd h (by simp)
  | a :: l₁, l₂, d, h => by
    rw [List.cons_append]
    cases hpa : p a with
    | true =>
      rw [List.find?_cons_of_pos _ hpa] at h ⊢
      exact h
    | false =>
      rw [List.find?_cons_of_neg _ (by simp [hpa])] at h ⊢
      exact find?_append_some p l₁ l₂ d h

theorem find?_append_none (p : ℕ → Bool) :
    ∀ (l₁ l₂ : List ℕ), l₁.find? p = none → (l₁ ++ l₂).find? p = l₂.find? p
  | [], _, _ => rfl
  | a :: l₁, l₂, h => by
    rw [List.cons_append]
    cases hpa : p a with
    | true =>
      rw [List.find?_cons_of_pos _ hpa] at h
      exact absurd h (by simp)
    | false =>
      rw [List.find?_cons_of_neg _ (by simp [hpa])] at h ⊢
      exact find?_append_none p l₁ l₂ h

/-- On an ascending range, `find?` returns an index no larger than any
witness. -/
theorem find?_range_le (p : ℕ → Bool) :
    ∀ (bound n : ℕ), n < bound → p n = true →
    ∃ d, (List.range bound).find? p = some d ∧ d ≤ n
  | 0, n, hn, _ => absurd hn (by omega)
  | b + 1, n, hn, hp => by
    rw [List.range_succ]
    cases hfb : (List.range b).find? p with
    | some d =>
      refine ⟨d, find?_append_some p _ _ d hfb, ?_⟩
      have hd := List.mem_of_find?_eq_some hfb
      rw [List.mem_range] at hd
      by_cases hnb : n < b
      · obtain ⟨d', hd', hle⟩ := find?_range_le p b n hnb hp
        rw [hfb] at hd'
        cases Option.some.inj hd'
        exact hle
      · omega
    | none =>
      rw [find?_append_none p _ _ hfb]
      have hnb : n = b := by
        by_contra hne
        have hnb' : n < b := by omega
        obtain ⟨d', hd', -⟩ := find?_range_le p b n hnb' hp
        rw [hfb] at hd'
        exact absurd hd' (by simp)
      subst hnb
      rw [List.find?_cons_of_pos _ hp]
      exact ⟨n, rfl, le_refl n⟩


theorem mem_validCells (gw : GridWorld) (p : Cell) :
    p ∈ validCells gw ↔ gw.is_valid_position p.1 p.2 = true := by
  unfold validCells GridWorld.is_valid_position
  rw [Finset.mem_product, Finset.mem_Ico, Finset.mem_Ico]
  simp only [Bool.and_eq_true, decide_eq_true_eq]
  tauto

theorem validCells_card (gw : GridWorld) :
    (validCells gw).card = gw.width.toNat * gw.height.toNat := by
  unfold validCells
  rw [Finset.card_product, Int.card_Ico, Int.card_Ico]
  simp

/-- The closed set never exceeds the grid size plus the start cell. -/
theorem closed_card_bound (gw : GridWorld) (t : ℤ) (start goal : Cell) (st : SState)
    (hst : StoreInv gw t start goal st) :
    st.closed.card ≤ gw.width.toNat * gw.height.toNat + 1 := by
  have hsub : st.closed ⊆ insert start (validCells gw) := by
    intro p hp
    rcases hst.pos_ok p (hst.closed_some p hp) with rfl | hv
    · exact Finset.mem_insert_self _ _
    · exact Finset.mem_insert_of_mem ((mem_validCells gw p).mpr hv)
  calc st.closed.card ≤ (insert start (validCells gw)).card := Finset.card_le_card hsub
    _ ≤ (validCells gw).card + 1 := Finset.card_insert_le _ _
    _ = gw.width.toNat * gw.height.toNat + 1 := by rw [validCells_card]

/-- C5: when `start == goal` the very first pop satisfies the goal test:
success, single-cell path, zero cost, and zero nodes expanded (which is
one of the two conventions the spec allows). -/
theorem c5_start_eq_goal (gw : GridWorld) (hfun : Cell → Cell → Frac) (s : Cell)
    (t : ℤ) (fuel : ℕ) (hfuel : 1 ≤ fuel) :
    search gw hfun s s t fuel =
      some { path := [s], cost := Cost.val (Frac.ofInt 0), nodes_expanded := 0,
             success := true } := by
  obtain ⟨f, rfl⟩ : ∃ f, fuel = f + 1 := ⟨fuel - 1, by omega⟩
  have hstore : (initState hfun s s).store s =
      some { g_cost := Cost.val (Frac.ofInt 0), h_cost := hfun s s,
             parent := none } := by
    show NodeStore.update (fun _ => none) s _ s = _
    rw [store_update_self]
  have hpop : heapPop (initState hfun s s).store (initState hfun s s).heap =
      some (s, []) := rfl
  unfold search searchFull
  rw [searchLoop, hpop]
  dsimp only
  rw [if_pos rfl]
  have hchain : chainAux (initState hfun s s).store s (0 + 2) = [s] := by
    have : chainAux (initState hfun s s).store s (0 + 2) =
        s :: (match (initState hfun s s).store s with
              | some nd =>
                match nd.parent with
                | some q => chainAux (initState hfun s s).store q 1
                | none => []
              | none => []) := rfl
    rw [this, hstore]
  rw [Option.map_some']
  dsimp only
  have hne : (initState hfun s s).nodes_expanded = 0 := rfl
  rw [hstore, hne, hchain]
  rfl

theorem c5_witness :
    search gridE manhattan_distance (1, 1) (1, 1) 0 1 =
      some { path := [(1, 1)], cost := Cost.val (Frac.ofInt 0), nodes_expanded := 0,
             success := true } :=
  c5_start_eq_goal gridE manhattan_distance (1, 1) 0 1 (by omega)

/-- C2 amended: a position already in the closed set CAN be popped and
re-expanded (so `nodes_expanded` may exceed the number of distinct
closed cells), but the closed set itself records each position once, so
`closed.card ≤ nodes_expanded` always holds at exit. -/
theorem c2_amended (gw : GridWorld) (hfun : Cell → Cell → Frac) (s g : Cell)
    (t : ℤ) (fuel : ℕ) (r : SearchResult) (stf : SState)
    (h : searchFull gw hfun s g t fuel = some (r, stf)) :
    stf.closed.card ≤ stf.nodes_expanded ∧ r.nodes_expanded = stf.nodes_expanded := by
  obtain ⟨hst, hne, -⟩ :=
    searchLoop_spec gw hfun t s g fuel _ r stf (init_inv gw hfun t s g) h
  exact ⟨hst.card_le, hne⟩

theorem c2_witness :
    (searchFull gridE manhattan_distance (0, 0) (2, 2) 0 100).map
      (fun rs => decide (rs.2.closed.card ≤ rs.2.nodes_expanded)) = some true := by
  cases hev : searchFull gridE manhattan_distance (0, 0) (2, 2) 0 100 with
  | none =>
    have hsome : (searchFull gridE manhattan_distance (0, 0) (2, 2) 0 100).isSome =
        true := by decide
    rw [hev] at hsome
    exact absurd hsome (by simp)
  | some rs =>
    have h := c2_amended gridE manhattan_distance (0, 0) (2, 2) 0 100 rs.1 rs.2
      (by rw [hev])
    rw [Option.map_some']
    exact congrArg some (decide_eq_true h.1)

/-- C4 amended: only an obstacle GOAL (with `start ≠ goal`) forces the
failure result; an obstacle start does not (see the counterexample). -/
theorem c4_amended (gw : GridWorld) (hfun : Cell → Cell → Frac) (s g : Cell)
    (t : ℤ) (fuel : ℕ) (r : SearchResult)
    (hobs : gw.is_obstacle g.1 g.2 t = true) (hsg : s ≠ g)
    (h : search gw hfun s g t fuel = some r) :
    r.success = false ∧ r.path = [] ∧ r.cost = Cost.inf := by
  obtain ⟨⟨r', stf⟩, hfull, hr⟩ := Option.map_eq_some'.mp h
  dsimp only at hr
  rw [← hr]
  have hinit_none : (initState hfun s g).store g = none := by
    show NodeStore.update (fun _ => none) s _ g = none
    rw [store_update_ne _ _ _ _ (Ne.symm hsg)]
  have hnone := searchLoop_goalNone gw hfun t s g hobs fuel _ r' stf
    (init_inv gw hfun t s g) hinit_none hfull
  obtain ⟨-, -, hcases⟩ :=
    searchLoop_spec gw hfun t s g fuel _ r' stf (init_inv gw hfun t s g) hfull
  rcases hcases with ⟨-, nd, hnd, -, -⟩ | ⟨hfail, hpath, hcost, -⟩
  · rw [hnone] at hnd
    exact absurd hnd (by simp)
  · exact ⟨hfail, hpath, hcost⟩

theorem c4_witness :
    (search gridC manhattan_distance (1, 1) (0, 0) 0 100).map SearchResult.success =
      some false := by
  cases hev : search gridC manhattan_distance (1, 1) (0, 0) 0 100 with
  | none => exact absurd hev (by decide)
  | some r =>
    have h := c4_amended gridC manhattan_distance (1, 1) (0, 0) 0 100 r
      (by decide) (by decide) hev
    rw [Option.map_some', h.1]

/-- C7: when a neighbor-closed separator set contains the start but not
the goal (i.e. the goal is unreachable), the loop exits normally with
the failure value: `success = false`, empty path, infinite cost, and the
expansion count accumulated so far. -/
theorem c7_unreachable (gw : GridWorld) (hfun : Cell → Cell → Frac) (s g : Cell)
    (t : ℤ) (fuel : ℕ) (r : SearchResult) (stf : SState) (S : Finset Cell)
    (hs : s ∈ S)
    (hclosure : ∀ p ∈ S, ∀ n ∈ gw.get_neighbors p.1 p.2 t, n ∈ S)
    (hgoal : g ∉ S)
    (h : searchFull gw hfun s g t fuel = some (r, stf)) :
    r.success = false ∧ r.path = [] ∧ r.cost = Cost.inf ∧
      r.nodes_expanded = stf.nodes_expanded := by
  have hinit_S : ∀ p, ((initState hfun s g).store p).isSome → p ∈ S := by
    intro p hp
    have hstore : (initState hfun s g).store p =
        if p = s then
          some { g_cost := Cost.val (Frac.ofInt 0), h_cost := hfun s g,
                 parent := none }
        else none := rfl
    rw [hstore] at hp
    by_cases hps : p = s
    · subst hps; exact hs
    · rw [if_neg hps] at hp
      exact absurd hp (by simp)
  have hinS := searchLoop_inS gw hfun t s g S hclosure fuel _ r stf
    (init_inv gw hfun t s g) hinit_S h
  obtain ⟨-, hne, hcases⟩ :=
    searchLoop_spec gw hfun t s g fuel _ r stf (init_inv gw hfun t s g) h
  rcases hcases with ⟨-, nd, hnd, -, -⟩ | ⟨hfail, hpath, hcost, -⟩
  · exact absurd (hinS g (by rw [hnd]; rfl)) hgoal
  · exact ⟨hfail, hpath, hcost, hne⟩

theorem c7_witness :
    (searchFull gridC manhattan_distance (0, 1) (0, 0) 0 100).map
      (fun rs => (rs.1.success, rs.1.path, rs.1.cost)) =
      some (false, [], Cost.inf) := by
  cases hev : searchFull gridC manhattan_distance (0, 1) (0, 0) 0 100 with
  | none =>
    have hsome : (searchFull gridC manhattan_distance (0, 1) (0, 0) 0 100).isSome =
        true := by decide
    rw [hev] at hsome
    exact absurd hsome (by simp)
  | some rs =>
    have h := c7_unreachable gridC manhattan_distance (0, 1) (0, 0) 0 100 rs.1 rs.2
      ({(0, 1), (1, 1), (1, 0)} : Finset Cell) (by decide) (by decide) (by decide)
      (by rw [hev])
    rw [Option.map_some', h.1, h.2.1, h.2.2.1]

/-- C6: on all-unit terrain, a successful search returns a path whose
consecutive cells are 4-adjacent, whose first element is the start and
last is the goal, and whose length minus one equals the returned cost. -/
theorem c6_path_valid (gw : GridWorld) (hfun : Cell → Cell → Frac) (s g : Cell)
    (t : ℤ) (fuel : ℕ) (r : SearchResult) (stf : SState)
    (hunit : UnitTerrain gw t)
    (h : searchFull gw hfun s g t fuel = some (r, stf))
    (hsucc : r.success = true) :
    r.path.head? = some s ∧ r.path.getLast? = some g ∧ List.Chain' Adj r.path ∧
    ∃ n : ℕ, r.cost = Cost.val (Frac.ofInt n) ∧ r.path.length = n + 1 := by
  obtain ⟨hst, hne, hcases⟩ :=
    searchLoop_spec gw hfun t s g fuel _ r stf (init_inv gw hfun t s g) h
  have hgnat := searchLoop_gnat gw hfun t s g hunit fuel _ r stf
    (init_inv gw hfun t s g) (init_gnat hfun s g) h
  rcases hcases with ⟨-, nd, hnd, hcost, hpath⟩ | ⟨hfail, -, -, -⟩
  · obtain ⟨n, hn⟩ := hgnat g nd hnd
    obtain ⟨Sn, hSsub, hScard, -⟩ :=
      g_card_bound gw t s g stf hst hunit hgnat n g nd hnd hn
    have hnle : n ≤ stf.nodes_expanded := by
      have h1 : Sn.card ≤ stf.closed.card := Finset.card_le_card hSsub
      have h2 := hst.card_le
      omega
    obtain ⟨l, hl, hlen, hlast, hchain⟩ := chain_spec gw t s g stf hst hunit hgnat
      n g nd (stf.nodes_expanded + 2) hnd hn (by omega)
    rw [hpath, hl]
    refine ⟨?_, ?_, ?_, n, by rw [hcost, hn], ?_⟩
    · rw [List.head?_reverse]
      exact hlast
    · rw [List.getLast?_reverse]
      rfl
    · rw [List.chain'_reverse]
      exact List.Chain'.imp (fun a b hab => adj_symm a b hab) hchain
    · rw [List.length_reverse, hlen]
  · rw [hfail] at hsucc
    exact absurd hsucc (by simp)

theorem gridE_unit : UnitTerrain gridE 0 := by
  intro x y hfree
  unfold GridWorld.get_terrain_cost
  simp [hfree]

theorem c6_witness :
    (searchFull gridE manhattan_distance (0, 0) (2, 2) 0 100).map
      (fun rs => (rs.1.path.head?, rs.1.path.getLast?)) =
      some (some (0, 0), some (2, 2)) := by
  have hs : (searchFull gridE manhattan_distance (0, 0) (2, 2) 0 100).map
      (fun rs => rs.1.success) = some true := by decide
  cases hev : searchFull gridE manhattan_distance (0, 0) (2, 2) 0 100 with
  | none =>
    rw [hev] at hs
    exact absurd hs (by simp)
  | some rs =>
    rw [hev, Option.map_some'] at hs
    have h := c6_path_valid gridE manhattan_distance (0, 0) (2, 2) 0 100 rs.1 rs.2
      gridE_unit (by rw [hev]) (Option.some.inj hs)
    rw [Option.map_some', h.1, h.2.1]

/-- C1 amended: with all-unit terrain, for EVERY heuristic the engine
succeeds exactly when the goal is reachable, and on success the returned
cost is a genuine path length, hence at least the breadth-first
reference distance — but (see the counterexample) it can strictly
exceed it even for an admissible heuristic. -/
theorem c1_amended (gw : GridWorld) (hfun : Cell → Cell → Frac) (s g : Cell)
    (t : ℤ) (fuel : ℕ) (r : SearchResult) (stf : SState)
    (hunit : UnitTerrain gw t)
    (h : searchFull gw hfun s g t fuel = some (r, stf)) :
    (r.success = true ↔ ∃ k, g ∈ reachN gw t s k) ∧
    (r.success = true →
      ∃ n : ℕ, r.cost = Cost.val (Frac.ofInt n) ∧
        ∃ d, bfsShortest gw t s g (gw.width.toNat * gw.height.toNat + 2) = some d ∧
          d ≤ n) := by
  obtain ⟨hst, hne, hcases⟩ :=
    searchLoop_spec gw hfun t s g fuel _ r stf (init_inv gw hfun t s g) h
  have hgnat := searchLoop_gnat gw hfun t s g hunit fuel _ r stf
    (init_inv gw hfun t s g) (init_gnat hfun s g) h
  have hsucc_reach : r.success = true → ∃ n : ℕ,
      (∃ nd, stf.store g = some nd ∧ nd.g_cost = Cost.val (Frac.ofInt n) ∧
        r.cost = nd.g_cost) ∧ g ∈ reachN gw t s n := by
    intro hsucc
    rcases hcases with ⟨-, nd, hnd, hcost, -⟩ | ⟨hfail, -, -, -⟩
    · obtain ⟨n, hn⟩ := hgnat g nd hnd
      exact ⟨n, ⟨nd, hnd, hn, hcost⟩, g_reach gw t s g stf hst hunit hgnat n g nd hnd hn⟩
    · rw [hfail] at hsucc
      exact absurd hsucc (by simp)
  constructor
  · constructor
    · intro hsucc
      obtain ⟨n, -, hreach⟩ := hsucc_reach hsucc
      exact ⟨n, hreach⟩
    · rintro ⟨k, hk⟩
      by_contra hns
      have hfail : r.success = false := by
        cases hb : r.success
        · rfl
        · exact absurd hb hns
      rcases hcases with ⟨hs', -⟩ | ⟨-, -, -, hclosed⟩
      · rw [hfail] at hs'
        exact absurd hs' (by simp)
      · have hreach_some : ∀ (j : ℕ) (p : Cell), p ∈ reachN gw t s j →
            (stf.store p).isSome := by
          intro j
          induction j with
          | zero =>
            intro p hp
            rcases Finset.mem_singleton.mp hp with rfl
            exact hst.start_some
          | succ j ih =>
            intro p hp
            rcases Finset.mem_union.mp hp with hp1 | hp2
            · exact ih p hp1
            · obtain ⟨q, hq, hpq⟩ := Finset.mem_biUnion.mp hp2
              rw [List.mem_toFinset] at hpq
              exact hst.closed_exp q (hclosed q (ih q hq)) p hpq
        have hgsome := hreach_some k g hk
        exact hst.closed_not_goal (hclosed g hgsome)
  · intro hsucc
    obtain ⟨n, ⟨nd, hnd, hn, hcost⟩, hreach⟩ := hsucc_reach hsucc
    refine ⟨n, by rw [hcost, hn], ?_⟩
    -- n is bounded by the grid size, so the reference scan finds a
    -- distance at most n
    obtain ⟨Sn, hSsub, hScard, -⟩ :=
      g_card_bound gw t s g stf hst hunit hgnat n g nd hnd hn
    have hbound : n < gw.width.toNat * gw.height.toNat + 2 := by
      have h1 : Sn.card ≤ stf.closed.card := Finset.card_le_card hSsub
      have h2 := closed_card_bound gw t s g stf hst
      omega
    obtain ⟨d, hd, hdle⟩ := find?_range_le (fun k => decide (g ∈ reachN gw t s k))
      (gw.width.toNat * gw.height.toNat + 2) n hbound (decide_eq_true hreach)
    exact ⟨d, hd, hdle⟩

theorem c1_witness :
    (searchFull gridE manhattan_distance (0, 0) (2, 2) 0 100).map
      (fun rs => rs.1.success) = some true ∧
    (∃ k, ((2, 2) : Cell) ∈ reachN gridE 0 (0, 0) k) := by
  have hs : (searchFull gridE manhattan_distance (0, 0) (2, 2) 0 100).map
      (fun rs => rs.1.success) = some true := by decide
  refine ⟨hs, ?_⟩
  cases hev : searchFull gridE manhattan_distance (0, 0) (2, 2) 0 100 with
  | none =>
    rw [hev] at hs
    exact absurd hs (by simp)
  | some rs =>
    rw [hev, Option.map_some'] at hs
    have h := c1_amended gridE manhattan_distance (0, 0) (2, 2) 0 100 rs.1 rs.2
      gridE_unit (by rw [hev])
    exact h.1.mp (Option.some.inj hs)
